import Mathlib

/-!
Verification development for the WordPress bulk blog uploader
(bulk-upload.js).  The JavaScript engine is shallowly embedded: pure
string manipulation becomes functions on `List Char`, the remote
WordPress store becomes an explicit `Store` value threaded through the
operations, and every remote call additionally records an event in a
trace so that ordering properties (rate-limit sleeps versus reads and
writes) can be stated.  Regex-based scans from the source are embedded
as fueled left-to-right scanners so that every definition is executable
by kernel reduction.
-/

set_option maxHeartbeats 1000000

namespace BulkUpload

/-- Whitespace test for the JavaScript regex class \s, modeled on the
ASCII range (space, tab, line feed, carriage return). -/
def isWS (c : Char) : Bool :=
  c == ' ' || c == '\t' || c == '\n' || c == '\r'

/-- Strip leading whitespace. -/
def ltrim (l : List Char) : List Char := l.dropWhile isWS

/-- Strip trailing whitespace: a character is kept unless it is
whitespace and everything after it is trailing whitespace as well. -/
def rtrim : List Char → List Char
  | [] => []
  | c :: r => if rtrim r = [] ∧ isWS c then [] else c :: rtrim r

/-- JavaScript String.prototype.trim on a character list. -/
def trimList (l : List Char) : List Char := ltrim (rtrim l)

/-- JavaScript s.trim(). -/
def jsTrim (s : String) : String := String.mk (trimList s.data)

/-- JavaScript s.toLowerCase(), modeled on the ASCII range. -/
def lower (s : String) : String := String.mk (s.data.map Char.toLower)

/-- JavaScript str.split with a comma separator: accumulator-based
splitting of a character list at every comma. -/
def splitCommaAux : List Char → List Char → List (List Char)
  | acc, [] => [acc.reverse]
  | acc, c :: r => if c = ',' then acc.reverse :: splitCommaAux [] r else splitCommaAux (c :: acc) r

/-- JavaScript str.split(",") on strings. -/
def splitComma (s : String) : List String :=
  (splitCommaAux [] s.data).map String.mk

/-- Does `pat` occur at the head of `l`?  (Prefix test used by the
fueled replace scanner.) -/
def headMatch : List Char → List Char → Bool
  | [], _ => true
  | _ :: _, [] => false
  | p :: ps, c :: cs => p == c && headMatch ps cs

/-- Does `pat` occur anywhere in `l` as a contiguous block?  Used to
model the WordPress term-search endpoint (substring search). -/
def hasSub (pat : List Char) : List Char → Bool
  | [] => headMatch pat []
  | c :: rest => headMatch pat (c :: rest) || hasSub pat rest

/-- One global replace pass for a fixed nonempty pattern, scanning left
to right exactly like JavaScript String.replace with a /g literal
pattern: on a match the scanner emits the replacement and continues
after the matched block, otherwise it emits one character and moves on.
Fueled; one unit of fuel consumes at least one input character. -/
def replF (pat rep : List Char) : Nat → List Char → List Char
  | 0, l => l
  | _ + 1, [] => []
  | fuel + 1, c :: rest =>
    if pat ≠ [] ∧ headMatch pat (c :: rest) then
      rep ++ replF pat rep fuel (rest.drop (pat.length - 1))
    else
      c :: replF pat rep fuel rest

/-- JavaScript str.replace(pattern, rep) for a fixed global string
pattern. -/
def repl (pat rep : List Char) (l : List Char) : List Char :=
  replF pat rep l.length l

/-- Fueled scanner for the regex replace /&[^;]+;/g → "" from
normalizeTitle: at an ampersand whose next character is not a
semicolon but which is followed by some semicolon, the whole entity
(up to and including the first semicolon) is dropped. -/
def catchAllF : Nat → List Char → List Char
  | 0, l => l
  | _ + 1, [] => []
  | fuel + 1, c :: rest =>
    if c = '&' ∧ rest.head? ≠ some ';' ∧ ';' ∈ rest then
      catchAllF fuel ((rest.dropWhile (fun d => d ≠ ';')).drop 1)
    else
      c :: catchAllF fuel rest

/-- The catch-all entity removal /&[^;]+;/g → "". -/
def catchAll (l : List Char) : List Char := catchAllF l.length l

/-- Fueled scanner for the regex replace /<[^>]*>/g → "" from
normalizeTitle: at an opening angle bracket that is followed by some
closing bracket the whole tag is dropped. -/
def stripTagsF : Nat → List Char → List Char
  | 0, l => l
  | _ + 1, [] => []
  | fuel + 1, c :: rest =>
    if c = '<' ∧ '>' ∈ rest then
      stripTagsF fuel ((rest.dropWhile (fun d => d ≠ '>')).drop 1)
    else
      c :: stripTagsF fuel rest

/-- HTML tag removal /<[^>]*>/g → "". -/
def stripTags (l : List Char) : List Char := stripTagsF l.length l

/-- Fueled scanner for the regex replace /\s+/g → " ": a maximal
whitespace run becomes a single space. -/
def collapseF : Nat → List Char → List Char
  | 0, l => l
  | _ + 1, [] => []
  | fuel + 1, c :: rest =>
    if isWS c then
      ' ' :: collapseF fuel (rest.dropWhile isWS)
    else
      c :: collapseF fuel rest

/-- Whitespace collapsing /\s+/g → " ". -/
def collapse (l : List Char) : List Char := collapseF l.length l

/-- The fixed entity patterns replaced by normalizeTitle, in source
order. -/
def entNbsp : List Char := ['&', 'n', 'b', 's', 'p', ';']

def entAmp : List Char := ['&', 'a', 'm', 'p', ';']

def entQuot : List Char := ['&', 'q', 'u', 'o', 't', ';']

def ent8217 : List Char := ['&', '#', '8', '2', '1', '7', ';']

def ent8216 : List Char := ['&', '#', '8', '2', '1', '6', ';']

def ent39 : List Char := ['&', '#', '3', '9', ';']

def ent038 : List Char := ['&', '#', '0', '3', '8', ';']

/-- The seven fixed entity replaces of normalizeTitle, applied in
source order. -/
def replaceEntities (l : List Char) : List Char :=
  repl ent038 ['&']
    (repl ent39 ['\'']
      (repl ent8216 ['\'']
        (repl ent8217 ['\'']
          (repl entQuot ['"']
            (repl entAmp ['&']
              (repl entNbsp [' '] l))))))

/-- The normalization pipeline of normalizeTitle on character lists:
strip HTML tags, decode or drop HTML entities, collapse whitespace,
lower-case, trim. -/
def normChars (l : List Char) : List Char :=
  trimList ((collapse (catchAll (replaceEntities (stripTags l)))).map Char.toLower)

/-- normalizeTitle from findPostByTitle: strip HTML tags, replace the
fixed entities, drop remaining entities, collapse whitespace,
lower-case and trim. -/
def normalizeTitle (s : String) : String :=
  String.mk (normChars s.data)

example : normalizeTitle "Hello <b>World</b>" = "hello world" := by decide

example : normalizeTitle "hello   world" = "hello world" := by decide

example : normalizeTitle "A &amp; B &#8217;s" = "a & b 's" := by decide

example : normalizeTitle "  <em>Caf&eacute; </em> TIME " = "caf time" := by decide

example : jsTrim "  a b  " = "a b" := by decide

example : hasSub ['b', 'c'] ['a', 'b', 'c', 'd'] = true := by decide

/-! ## Data model

The remote WordPress store, input rows, outbound payload pieces, row
results and the event trace recorded by the embedded operations. -/

/-- A remote post, as far as the uploader observes it: identifier,
title, slug and status. -/
structure Post where
  id : Nat
  title : String
  slug : String
  status : String
deriving DecidableEq, Repr

/-- A remote taxonomy term. -/
structure Term where
  id : Nat
  name : String
  tax : String
deriving DecidableEq, Repr

/-- The remote WordPress state: posts newest first (the order in which
the duplicate scan pages through them), terms, and the identifiers the
server will assign to the next created post, term and media item. -/
structure Store where
  posts : List Post
  terms : List Term
  nextPostId : Nat
  nextTermId : Nat
  nextMediaId : Nat
deriving DecidableEq, Repr

/-- One CSV row.  Absent CSV columns behave like empty strings in the
source (both are falsy under the optional-chaining trim tests), so
every field is a plain string. -/
structure Row where
  title : String := ""
  content : String := ""
  status : String := ""
  slug : String := ""
  excerpt : String := ""
  meta_description : String := ""
  focus_keyword : String := ""
  primary_keyword : String := ""
  seo_title : String := ""
  og_title : String := ""
  og_description : String := ""
  twitter_title : String := ""
  twitter_description : String := ""
  canonical_url : String := ""
  noindex : String := ""
  nofollow : String := ""
  schema_json : String := ""
  acf_json : String := ""
  categories : String := ""
  tags : String := ""
  featured_image_path : String := ""
  featured_image_url : String := ""
deriving DecidableEq, Repr

/-- A value stored in the outbound meta mapping: a scalar string or an
array of strings (rank_math_robots). -/
inductive MetaVal where
  | str (v : String)
  | arr (vs : List String)
deriving DecidableEq, Repr

/-- One per-row outcome record. -/
structure RowResult where
  rowNumber : Nat
  title : String
  action : Option String
  postId : Option Nat
  status : Option String
  error : Option String
deriving DecidableEq, Repr

/-- Kinds of read-only remote lookups. -/
inductive RKind where
  | terms
  | slugq
  | titleScan
  | media
deriving DecidableEq, Repr

/-- Kinds of state-mutating remote calls. -/
inductive WKind where
  | term
  | media
  | post
deriving DecidableEq, Repr

/-- One step of an execution trace: a rate-limit sleep, a read-only
lookup or a state-mutating write. -/
inductive Ev where
  | sleep
  | read (k : RKind)
  | write (k : WKind)
deriving DecidableEq, Repr

/-- Configuration and environment: the default post status, whether
the paginated title scan fails with an HTTP or network error (its
try/catch turns any such error into a null result), an abstract JSON
parser for the opaque schema and ACF payloads (none models a parse
failure), and oracles for local file existence and remote image
downloads. -/
structure Env where
  defaultStatus : String
  titleScanErr : Bool
  parseJson : String → Option String
  fileExists : String → Bool
  downloadOk : String → Bool

/-! ## Meta mapping (SEO field projection)

The source assigns SEO meta keys on a plain JavaScript object; the
embedding uses an association list in insertion order.  The hyphenated
Yoast keys are written in the source with dot notation
(postData.meta._yoast_wpseo_opengraph-title = ...), which is not a
valid JavaScript assignment target; the embedding gives those
statements their intended bracket-notation semantics, with the string
key taken verbatim.  See the C7 analysis. -/

/-- Look up a meta key (first binding wins, as on an object where each
key is assigned once). -/
def metaGet (m : List (String × MetaVal)) (k : String) : Option MetaVal :=
  (m.find? (fun p => p.1 == k)).map (fun p => p.2)

/-- The nofollow branch: push "nofollow" onto rank_math_robots when
present, otherwise create it. -/
def pushRobots (m : List (String × MetaVal)) : List (String × MetaVal) :=
  match metaGet m "rank_math_robots" with
  | some (MetaVal.arr vs) =>
      m.map (fun p =>
        if p.1 == "rank_math_robots" then (p.1, MetaVal.arr (vs ++ ["nofollow"])) else p)
  | some (MetaVal.str _) =>
      m.map (fun p =>
        if p.1 == "rank_math_robots" then p else p)
  | none => m ++ [("rank_math_robots", MetaVal.arr ["nofollow"])]

/-- Append key/value pairs when a condition holds (one conditional
meta-assignment block of the source). -/
def metaIf (b : Bool) (kvs : List (String × MetaVal)) (m : List (String × MetaVal)) :
    List (String × MetaVal) :=
  if b then m ++ kvs else m

/-- The first eight SEO meta blocks of createOrUpdatePost (source
lines 419-463): description, keyword, SEO title, Open Graph, Twitter
and canonical fields, in source order. -/
def metaCore (row : Row) : List (String × MetaVal) :=
  let m0 : List (String × MetaVal) := []
  let m1 := metaIf (jsTrim row.meta_description != "")
    [("_yoast_wpseo_metadesc", MetaVal.str (jsTrim row.meta_description)),
     ("rank_math_description", MetaVal.str (jsTrim row.meta_description))] m0
  let kw := jsTrim (if row.focus_keyword != "" then row.focus_keyword else row.primary_keyword)
  let m2 := metaIf (jsTrim row.focus_keyword != "" || jsTrim row.primary_keyword != "")
    [("_yoast_wpseo_focuskw", MetaVal.str kw),
     ("rank_math_focus_keyword", MetaVal.str kw)] m1
  let m3 := metaIf (jsTrim row.seo_title != "")
    [("_yoast_wpseo_title", MetaVal.str (jsTrim row.seo_title)),
     ("rank_math_title", MetaVal.str (jsTrim row.seo_title))] m2
  let m4 := metaIf (jsTrim row.og_title != "")
    [("_yoast_wpseo_opengraph-title", MetaVal.str (jsTrim row.og_title))] m3
  let m5 := metaIf (jsTrim row.og_description != "")
    [("_yoast_wpseo_opengraph-description", MetaVal.str (jsTrim row.og_description))] m4
  let m6 := metaIf (jsTrim row.twitter_title != "")
    [("_yoast_wpseo_twitter-title", MetaVal.str (jsTrim row.twitter_title))] m5
  let m7 := metaIf (jsTrim row.twitter_description != "")
    [("_yoast_wpseo_twitter-description", MetaVal.str (jsTrim row.twitter_description))] m6
  let m8 := metaIf (jsTrim row.canonical_url != "")
    [("_yoast_wpseo_canonical", MetaVal.str (jsTrim row.canonical_url)),
     ("rank_math_canonical_url", MetaVal.str (jsTrim row.canonical_url))] m7
  m8

/-- The SEO meta mapping built by createOrUpdatePost (source lines
413-487), in source order: the first eight blocks, then the noindex,
nofollow and schema blocks. -/
def buildMeta (env : Env) (row : Row) : List (String × MetaVal) :=
  let m8 := metaCore row
  let m9 := metaIf (jsTrim row.noindex != "" && lower row.noindex == "yes")
    [("_yoast_wpseo_meta-robots-noindex", MetaVal.str "1"),
     ("rank_math_robots", MetaVal.arr ["noindex"])] m8
  let m10 :=
    if jsTrim row.nofollow != "" && lower row.nofollow == "yes" then
      pushRobots (m9 ++ [("_yoast_wpseo_meta-robots-nofollow", MetaVal.str "1")])
    else m9
  let m11 :=
    if jsTrim row.schema_json != "" then
      match env.parseJson row.schema_json with
      | some j => m10 ++ [("_schema_json", MetaVal.str j)]
      | none => m10
    else m10
  m11

/-! ## Remote operations

Each operation returns its result together with the updated store and
the trace of remote events it performed, in order. -/

/-- The term-search endpoint GET /{taxonomy}?search=...&per_page=100:
terms of the taxonomy whose name contains the query, case
insensitively. -/
def searchTerms (st : Store) (tax q : String) : List Term :=
  st.terms.filter (fun t => t.tax == tax && hasSub (lower q).data (lower t.name).data)

/-- getOrCreateTerm: search the taxonomy for a case-insensitive exact
name match among the search results; on a miss, sleep and create the
term with the trimmed name. -/
def getOrCreateTerm (st : Store) (name tax : String) : Option Nat × Store × List Ev :=
  if jsTrim name = "" then (none, st, [])
  else
    let tn := jsTrim name
    match (searchTerms st tax tn).find? (fun t => lower t.name == lower tn) with
    | some t => (some t.id, st, [Ev.read RKind.terms])
    | none =>
        (some st.nextTermId,
         { st with
             terms := st.terms ++ [⟨st.nextTermId, tn, tax⟩],
             nextTermId := st.nextTermId + 1 },
         [Ev.read RKind.terms, Ev.sleep, Ev.write WKind.term])

/-- The body of the resolveTerms loop: resolve each name in order,
keep the truthy identifiers, and sleep after every resolution. -/
def resolveLoop (tax : String) : Store → List String → List Nat × Store × List Ev
  | st, [] => ([], st, [])
  | st, n :: ns =>
    let r := getOrCreateTerm st n tax
    let rest := resolveLoop tax r.2.1 ns
    ((match r.1 with
      | some i => if i ≠ 0 then i :: rest.1 else rest.1
      | none => rest.1),
     rest.2.1,
     r.2.2 ++ [Ev.sleep] ++ rest.2.2)

/-- resolveTerms: split the comma-separated list, trim, drop empties,
resolve serially. -/
def resolveTerms (st : Store) (termString tax : String) : List Nat × Store × List Ev :=
  if jsTrim termString = "" then ([], st, [])
  else
    resolveLoop tax st (((splitComma termString).map jsTrim).filter (fun n => n ≠ ""))

/-- Is this path an http or https URL?  (The uploadMedia branch
test.) -/
def isUrl (p : String) : Bool :=
  headMatch ['h', 't', 't', 'p', ':', '/', '/'] (jsTrim p).data ||
  headMatch ['h', 't', 't', 'p', 's', ':', '/', '/'] (jsTrim p).data

/-- uploadMedia: fetch the bytes (URL download or local file read),
then sleep and POST to the media library.  Any download or read
failure yields none without an error; the upload itself is modeled as
succeeding. -/
def uploadMedia (env : Env) (st : Store) (p : String) : Option Nat × Store × List Ev :=
  if jsTrim p = "" then (none, st, [])
  else if isUrl p then
    if env.downloadOk (jsTrim p) then
      (some st.nextMediaId, { st with nextMediaId := st.nextMediaId + 1 },
       [Ev.read RKind.media, Ev.sleep, Ev.write WKind.media])
    else (none, st, [Ev.read RKind.media])
  else
    if env.fileExists p then
      (some st.nextMediaId, { st with nextMediaId := st.nextMediaId + 1 },
       [Ev.sleep, Ev.write WKind.media])
    else (none, st, [])

/-- findPostBySlug: GET /posts?slug=...&per_page=1, returning the
first exact slug match. -/
def findPostBySlug (st : Store) (slug : String) : Option Nat × List Ev :=
  if jsTrim slug = "" then (none, [])
  else
    ((st.posts.find? (fun p => p.slug == jsTrim slug)).map (fun p => p.id),
     [Ev.read RKind.slugq])

/-- The pagination loop of findPostByTitle: pages of one hundred posts
over all statuses, newest first, stopping on an empty page, a short
page, or after page ten; each page is one read.  The fuel counts the
remaining page requests (ten at the top level). -/
def titleScanLoop (norm : String) (posts : List Post) (page : Nat) : Nat → Option Nat × List Ev
  | 0 => (none, [])
  | fuel + 1 =>
    let chunk := (posts.drop ((page - 1) * 100)).take 100
    if chunk = [] then (none, [Ev.read RKind.titleScan])
    else
      match chunk.find? (fun p => normalizeTitle p.title == norm) with
      | some p => (some p.id, [Ev.read RKind.titleScan])
      | none =>
          if chunk.length < 100 then (none, [Ev.read RKind.titleScan])
          else if page + 1 > 10 then (none, [Ev.read RKind.titleScan])
          else
            let r := titleScanLoop norm posts (page + 1) fuel
            (r.1, Ev.read RKind.titleScan :: r.2)

/-- findPostByTitle: normalize the candidate title and scan up to one
thousand posts for a normalized-title match.  The surrounding
try/catch returns null on any HTTP or network error, modeled by the
titleScanErr flag. -/
def findPostByTitle (env : Env) (st : Store) (title : String) : Option Nat × List Ev :=
  if jsTrim title = "" then (none, [])
  else if env.titleScanErr then (none, [Ev.read RKind.titleScan])
  else titleScanLoop (normalizeTitle title) st.posts 1 10

/-- The corpus actually examined by the duplicate scan: at most the
first thousand posts (ten pages of one hundred). -/
def scannedPosts (st : Store) : List Post := st.posts.take 1000

/-- The duplicate-title rejection message of createOrUpdatePost. -/
def dupErrMsg (t : String) (i : Nat) : String :=
  "Post with title \"" ++ t ++ "\" already exists (ID: " ++ toString i ++
    "). Duplicate posts are not allowed."

/-- A RowResult for a failed row. -/
def errResult (n : Nat) (t e : String) : RowResult :=
  ⟨n, t, none, none, none, some e⟩

/-- The enrichment phase of createOrUpdatePost (source lines 499-522):
resolve categories, then tags, then upload the featured image, serially
on the evolving store.  Returns the resolved category identifiers, tag
identifiers and media identifier together with the evolved store and
the event trace. -/
def resolveRow (env : Env) (st : Store) (row : Row) :
    (List Nat × List Nat × Option Nat) × Store × List Ev :=
  let cats :=
    if jsTrim row.categories ≠ "" then resolveTerms st row.categories "categories"
    else ([], st, [])
  let tgs :=
    if jsTrim row.tags ≠ "" then resolveTerms cats.2.1 row.tags "tags"
    else ([], cats.2.1, [])
  let imagePath :=
    if jsTrim row.featured_image_path ≠ "" then jsTrim row.featured_image_path
    else jsTrim row.featured_image_url
  let med :=
    if imagePath ≠ "" then uploadMedia env tgs.2.1 imagePath
    else (none, tgs.2.1, [])
  ((cats.1, tgs.1, med.1), med.2.1, cats.2.2 ++ tgs.2.2 ++ med.2.2)

/-- createOrUpdatePost: validate, build the payload, resolve terms and
media, reject duplicates by normalized title, look up the slug, then
sleep and create or update. -/
def createOrUpdatePost (env : Env) (st : Store) (row : Row) (rowNumber : Nat) :
    RowResult × Store × List Ev :=
  let rtitle := if row.title = "" then "Untitled" else row.title
  if jsTrim row.title = "" then
    (errResult rowNumber rtitle "Missing required field: title", st, [])
  else if jsTrim row.content = "" then
    (errResult rowNumber rtitle "Missing required field: content", st, [])
  else
    let pTitle := jsTrim row.title
    let pStatus := if jsTrim row.status ≠ "" then jsTrim row.status else env.defaultStatus
    let pSlug : Option String := if jsTrim row.slug ≠ "" then some (jsTrim row.slug) else none
    let rr := resolveRow env st row
    let st3 := rr.2.1
    let trPre := rr.2.2
    let dup := findPostByTitle env st3 pTitle
    match dup.1 with
    | some did =>
        (errResult rowNumber rtitle (dupErrMsg pTitle did), st3, trPre ++ dup.2)
    | none =>
        let sl :=
          match pSlug with
          | some s => findPostBySlug st3 s
          | none => (none, [])
        match sl.1 with
        | some pid =>
            (⟨rowNumber, rtitle, some "updated", some pid, some pStatus, none⟩,
             { st3 with
                 posts := st3.posts.map (fun p =>
                   if p.id = pid then
                     { p with title := pTitle, status := pStatus,
                              slug := (pSlug.getD p.slug) }
                   else p) },
             trPre ++ dup.2 ++ sl.2 ++ [Ev.sleep, Ev.write WKind.post])
        | none =>
            (⟨rowNumber, rtitle, some "created", some st3.nextPostId, some pStatus, none⟩,
             { st3 with
                 posts := ⟨st3.nextPostId, pTitle, pSlug.getD "", pStatus⟩ :: st3.posts,
                 nextPostId := st3.nextPostId + 1 },
             trPre ++ dup.2 ++ sl.2 ++ [Ev.sleep, Ev.write WKind.post])

/-- The batch summary computed after the last row. -/
structure BatchSummary where
  total : Nat
  success : Nat
  failed : Nat
  results : List RowResult
deriving DecidableEq, Repr

/-- The per-row loop shared by main and processCsvFile: one
createOrUpdatePost call per row, one result pushed per row, row
numbers starting at the given index. -/
def processLoop (env : Env) : Store → Nat → List Row → List RowResult × Store × List Ev
  | st, _, [] => ([], st, [])
  | st, n, row :: rows =>
    let r := createOrUpdatePost env st row n
    let rest := processLoop env r.2.1 (n + 1) rows
    (r.1 :: rest.1, rest.2.1, r.2.2 ++ rest.2.2)

/-- processCsvFile, restricted to its row-processing core: run every
row in order and compute the summary counts from the result
sequence. -/
def processCsvFile (env : Env) (st : Store) (rows : List Row) :
    BatchSummary × Store × List Ev :=
  let r := processLoop env st 1 rows
  (⟨rows.length,
    (r.1.filter (fun x => x.error = none)).length,
    (r.1.filter (fun x => x.error ≠ none)).length,
    r.1⟩,
   r.2.1, r.2.2)

/-! ## Basic lemmas about trimming -/

theorem dropWhile_dropWhile (p : Char → Bool) (l : List Char) :
    (l.dropWhile p).dropWhile p = l.dropWhile p := by
  induction l with
  | nil => rfl
  | cons c r ih =>
      by_cases h : p c <;> simp [List.dropWhile_cons, h, ih]

theorem ltrim_ltrim (l : List Char) : ltrim (ltrim l) = ltrim l :=
  dropWhile_dropWhile isWS l

theorem rtrim_cons (c : Char) (r : List Char) :
    rtrim (c :: r) = if rtrim r = [] ∧ isWS c then [] else c :: rtrim r := rfl

theorem rtrim_rtrim (l : List Char) : rtrim (rtrim l) = rtrim l := by
  induction l with
  | nil => rfl
  | cons c r ih =>
      rw [rtrim_cons]
      split
      · rfl
      · rename_i h
        rw [rtrim_cons, ih]
        split
        · rename_i h2
          exact absurd ⟨h2.1, h2.2⟩ h
        · rfl

/-- Trimming the front keeps the back trimmed. -/
theorem rtrim_ltrim (l : List Char) (h : rtrim l = l) : rtrim (ltrim l) = ltrim l := by
  induction l with
  | nil => rfl
  | cons c r ih =>
      rw [rtrim_cons] at h
      by_cases hc : isWS c
      · rw [ltrim, List.dropWhile_cons, if_pos hc]
        split at h
        · exact absurd h (by simp)
        · have hr : rtrim r = r := by injection h
          exact ih hr
      · rw [ltrim, List.dropWhile_cons, if_neg (by simpa using hc)]
        rw [rtrim_cons]
        split at h
        · exact absurd h (by simp)
        · have hr : rtrim r = r := by injection h
          rw [hr]
          split
          · rename_i h2
            exact absurd h2.2 hc
          · rfl

theorem trimList_trimList (l : List Char) : trimList (trimList l) = trimList l := by
  rw [trimList, trimList, rtrim_ltrim (rtrim l) (rtrim_rtrim l), ltrim_ltrim]

theorem jsTrim_jsTrim (s : String) : jsTrim (jsTrim s) = jsTrim s := by
  simp [jsTrim, trimList_trimList]

/-! ## Store and trace facts about the remote operations -/

theorem getOrCreateTerm_store (st : Store) (n tax : String) :
    ((getOrCreateTerm st n tax).2.1).posts = st.posts ∧
    ((getOrCreateTerm st n tax).2.1).nextPostId = st.nextPostId := by
  simp only [getOrCreateTerm]
  split
  · exact ⟨rfl, rfl⟩
  · split <;> exact ⟨rfl, rfl⟩

theorem getOrCreateTerm_trace (st : Store) (n tax : String) :
    ∀ e ∈ (getOrCreateTerm st n tax).2.2, e ≠ Ev.write WKind.post := by
  simp only [getOrCreateTerm]
  split
  · simp
  · split <;> simp

theorem resolveLoop_store (tax : String) (ns : List String) : ∀ st : Store,
    ((resolveLoop tax st ns).2.1).posts = st.posts ∧
    ((resolveLoop tax st ns).2.1).nextPostId = st.nextPostId := by
  induction ns with
  | nil => intro st; exact ⟨rfl, rfl⟩
  | cons n rest ih =>
      intro st
      have h1 := getOrCreateTerm_store st n tax
      have h2 := ih (getOrCreateTerm st n tax).2.1
      simp only [resolveLoop]
      exact ⟨h2.1.trans h1.1, h2.2.trans h1.2⟩

theorem resolveLoop_trace (tax : String) (ns : List String) : ∀ st : Store,
    ∀ e ∈ (resolveLoop tax st ns).2.2, e ≠ Ev.write WKind.post := by
  induction ns with
  | nil => intro st e he; simp [resolveLoop] at he
  | cons n rest ih =>
      intro st e he
      simp only [resolveLoop, List.mem_append, List.mem_singleton] at he
      rcases he with (he | he) | he
      · exact getOrCreateTerm_trace st n tax e he
      · subst he; simp
      · exact ih _ e he

theorem resolveTerms_store (st : Store) (s tax : String) :
    ((resolveTerms st s tax).2.1).posts = st.posts ∧
    ((resolveTerms st s tax).2.1).nextPostId = st.nextPostId := by
  unfold resolveTerms
  split
  · exact ⟨rfl, rfl⟩
  · exact resolveLoop_store tax _ st

theorem resolveTerms_trace (st : Store) (s tax : String) :
    ∀ e ∈ (resolveTerms st s tax).2.2, e ≠ Ev.write WKind.post := by
  unfold resolveTerms
  split
  · simp
  · exact resolveLoop_trace tax _ st

theorem uploadMedia_store (env : Env) (st : Store) (p : String) :
    ((uploadMedia env st p).2.1).posts = st.posts ∧
    ((uploadMedia env st p).2.1).nextPostId = st.nextPostId := by
  unfold uploadMedia
  split
  · exact ⟨rfl, rfl⟩
  split
  · split <;> exact ⟨rfl, rfl⟩
  · split <;> exact ⟨rfl, rfl⟩

theorem uploadMedia_trace (env : Env) (st : Store) (p : String) :
    ∀ e ∈ (uploadMedia env st p).2.2, e ≠ Ev.write WKind.post := by
  unfold uploadMedia
  split
  · simp
  split
  · split <;> simp
  · split <;> simp

theorem resolveRow_store (env : Env) (st : Store) (row : Row) :
    ((resolveRow env st row).2.1).posts = st.posts ∧
    ((resolveRow env st row).2.1).nextPostId = st.nextPostId := by
  unfold resolveRow
  have hcats :
      ∀ st' : Store,
        (((if jsTrim row.categories ≠ "" then resolveTerms st' row.categories "categories"
           else ([], st', [])).2.1).posts = st'.posts ∧
         ((if jsTrim row.categories ≠ "" then resolveTerms st' row.categories "categories"
           else ([], st', [])).2.1).nextPostId = st'.nextPostId) := by
    intro st'
    split
    · exact resolveTerms_store st' row.categories "categories"
    · exact ⟨rfl, rfl⟩
  have htgs :
      ∀ st' : Store,
        (((if jsTrim row.tags ≠ "" then resolveTerms st' row.tags "tags"
           else ([], st', [])).2.1).posts = st'.posts ∧
         ((if jsTrim row.tags ≠ "" then resolveTerms st' row.tags "tags"
           else ([], st', [])).2.1).nextPostId = st'.nextPostId) := by
    intro st'
    split
    · exact resolveTerms_store st' row.tags "tags"
    · exact ⟨rfl, rfl⟩
  have hmed :
      ∀ (st' : Store) (ip : String),
        (((if ip ≠ "" then uploadMedia env st' ip else (none, st', [])).2.1).posts = st'.posts ∧
         ((if ip ≠ "" then uploadMedia env st' ip else (none, st', [])).2.1).nextPostId
           = st'.nextPostId) := by
    intro st' ip
    split
    · exact uploadMedia_store env st' ip
    · exact ⟨rfl, rfl⟩
  refine ⟨?_, ?_⟩
  · exact ((hmed _ _).1.trans (htgs _).1).trans (hcats st).1
  · exact ((hmed _ _).2.trans (htgs _).2).trans (hcats st).2

theorem resolveRow_trace (env : Env) (st : Store) (row : Row) :
    ∀ e ∈ (resolveRow env st row).2.2, e ≠ Ev.write WKind.post := by
  have hcats :
      ∀ (st' : Store) (s tax : String),
        ∀ e ∈ (if jsTrim s ≠ "" then resolveTerms st' s tax else ([], st', [])).2.2,
          e ≠ Ev.write WKind.post := by
    intro st' s tax e he
    revert he
    split
    · exact fun he => resolveTerms_trace _ _ _ e he
    · simp
  have hmed :
      ∀ (st' : Store) (ip : String),
        ∀ e ∈ (if ip ≠ "" then uploadMedia env st' ip else (none, st', [])).2.2,
          e ≠ Ev.write WKind.post := by
    intro st' ip e he
    revert he
    split
    · exact fun he => uploadMedia_trace _ _ _ e he
    · simp
  unfold resolveRow
  intro e he
  simp only [List.mem_append] at he
  rcases he with (he | he) | he
  · exact hcats _ _ _ e he
  · exact hcats _ _ _ e he
  · exact hmed _ _ e he

/-! ## The title scan visits exactly the first thousand posts -/

theorem titleScanLoop_find (norm : String) (posts : List Post) :
    ∀ (fuel page : Nat), 1 ≤ page → page + fuel = 11 →
    (titleScanLoop norm posts page fuel).1 =
      (((posts.drop ((page - 1) * 100)).take (fuel * 100)).find?
        (fun p => normalizeTitle p.title == norm)).map (fun p => p.id) := by
  intro fuel
  induction fuel with
  | zero =>
      intro page h1 h2
      simp [titleScanLoop]
  | succ f ih =>
      intro page h1 h2
      rw [titleScanLoop]
      set dropped := posts.drop ((page - 1) * 100) with hdropped
      have htake : dropped.take ((f + 1) * 100) =
          dropped.take 100 ++ (dropped.drop 100).take (f * 100) := by
        rw [← List.take_add]
        ring_nf
      by_cases hchunk : dropped.take 100 = []
      · rw [if_pos hchunk]
        have hnil : dropped = [] := by
          rcases List.take_eq_nil_iff.mp hchunk with h | h
          · exact absurd h (by norm_num)
          · exact h
        rw [hnil]
        simp
      · rw [if_neg hchunk]
        cases hfind : (dropped.take 100).find? (fun p => normalizeTitle p.title == norm) with
        | some p =>
            rw [htake, List.find?_append, hfind]
            rfl
        | none =>
            by_cases hshort : (dropped.take 100).length < 100
            · rw [if_pos hshort]
              have hlen : dropped.length < 100 := by
                by_contra hge
                push_neg at hge
                rw [List.length_take] at hshort
                omega
              have : dropped.take 100 = dropped := List.take_of_length_le (by omega)
              have htall : dropped.take ((f + 1) * 100) = dropped :=
                List.take_of_length_le (by nlinarith)
              rw [htall, ← this, hfind]
              rfl
            · rw [if_neg hshort]
              by_cases hcap : page + 1 > 10
              · rw [if_pos hcap]
                have hf : f = 0 := by omega
                subst hf
                rw [htake]
                simp only [Nat.zero_mul, List.take_zero, List.append_nil]
                rw [hfind]
                rfl
              · rw [if_neg hcap]
                have hrec := ih (page + 1) (by omega) (by omega)
                have hdrop2 : posts.drop ((page + 1 - 1) * 100) = dropped.drop 100 := by
                  rw [hdropped, List.drop_drop]
                  congr 1
                  omega
                rw [htake, List.find?_append, hfind]
                simp only [Option.none_orElse]
                simp only [hdrop2] at hrec
                exact hrec

/-- findPostByTitle, when the scan does not fail, returns the first
normalized-title match among the scanned corpus. -/
theorem findPostByTitle_eq (env : Env) (st : Store) (title : String)
    (henv : env.titleScanErr = false) (ht : jsTrim title ≠ "") :
    (findPostByTitle env st title).1 =
      ((scannedPosts st).find? (fun p => normalizeTitle p.title == normalizeTitle title)).map
        (fun p => p.id) := by
  unfold findPostByTitle
  rw [if_neg ht, henv]
  simp only [Bool.false_eq_true, if_false]
  have := titleScanLoop_find (normalizeTitle title) st.posts 10 1 (by omega) (by omega)
  rw [this]
  simp [scannedPosts]

/-! ## Facts about Char.toLower on the ASCII range -/

theorem toNat_ofNat_valid (n : Nat) (h : n.isValidChar) : (Char.ofNat n).toNat = n := by
  rw [Char.ofNat, dif_pos h]
  rfl

theorem toLower_toNat_upper (c : Char) (h : 65 ≤ c.toNat ∧ c.toNat ≤ 90) :
    (Char.toLower c).toNat = c.toNat + 32 := by
  rw [Char.toLower]
  rw [if_pos h]
  exact toNat_ofNat_valid _ (Or.inl (by omega))

theorem toLower_eq_self (c : Char) (h : ¬(65 ≤ c.toNat ∧ c.toNat ≤ 90)) :
    Char.toLower c = c := by
  rw [Char.toLower, if_neg h]

theorem char_eq_of_toNat (a b : Char) (h : a.toNat = b.toNat) : a = b := by
  apply Char.eq_of_val_eq
  exact UInt32.toNat.inj h

theorem toLower_toLower (c : Char) : Char.toLower (Char.toLower c) = Char.toLower c := by
  by_cases h : 65 ≤ c.toNat ∧ c.toNat ≤ 90
  · have h1 := toLower_toNat_upper c h
    apply toLower_eq_self
    omega
  · rw [toLower_eq_self c h, toLower_eq_self c h]

/-- Lower-casing cannot produce a character outside the lower-case
letter range unless the input already was that character. -/
theorem toLower_fix_rev (c d : Char) (hd : d.toNat < 97 ∨ 122 < d.toNat)
    (h : Char.toLower c = d) : c = d := by
  by_cases hu : 65 ≤ c.toNat ∧ c.toNat ≤ 90
  · have h1 := toLower_toNat_upper c hu
    rw [h] at h1
    omega
  · rw [toLower_eq_self c hu] at h
    exact h

theorem isWS_false_of_toNat (c : Char)
    (h : c.toNat ≠ 32 ∧ c.toNat ≠ 9 ∧ c.toNat ≠ 10 ∧ c.toNat ≠ 13) : isWS c = false := by
  simp only [isWS, Bool.or_eq_false_iff, beq_eq_false_iff_ne]
  refine ⟨⟨⟨?_, ?_⟩, ?_⟩, ?_⟩ <;> intro he <;> rw [he] at h
  · exact h.1 rfl
  · exact h.2.1 rfl
  · exact h.2.2.1 rfl
  · exact h.2.2.2 rfl

theorem isWS_toLower (c : Char) : isWS (Char.toLower c) = isWS c := by
  by_cases h : 65 ≤ c.toNat ∧ c.toNat ≤ 90
  · have h1 := toLower_toNat_upper c h
    rw [isWS_false_of_toNat c (by omega), isWS_false_of_toNat (Char.toLower c) (by omega)]
  · rw [toLower_eq_self c h]

/-! ## Trace discipline checkers -/

/-- Scanning check that every write event is immediately preceded by a
sleep event; the Boolean argument records whether the previous event
was a sleep. -/
def wOKb : Bool → List Ev → Bool
  | _, [] => true
  | _, Ev.sleep :: r => wOKb true r
  | _, Ev.read _ :: r => wOKb false r
  | b, Ev.write _ :: r => b && wOKb false r

/-- Scanning check that no read event is immediately preceded by a
sleep event. -/
def noSleepReadb : Bool → List Ev → Bool
  | _, [] => true
  | _, Ev.sleep :: r => noSleepReadb true r
  | b, Ev.read _ :: r => !b && noSleepReadb false r
  | _, Ev.write _ :: r => noSleepReadb false r

/-- The delay discipline asserted by the specification for a trace:
a sleep immediately before every write, and never immediately before a
read. -/
def delayDiscipline (tr : List Ev) : Bool :=
  wOKb false tr && noSleepReadb false tr

/-- State after scanning a trace: was the last event a sleep? -/
def endSleep (b : Bool) : List Ev → Bool
  | [] => b
  | Ev.sleep :: r => endSleep true r
  | Ev.read _ :: r => endSleep false r
  | Ev.write _ :: r => endSleep false r

theorem wOKb_append (t1 : List Ev) : ∀ (b : Bool) (t2 : List Ev),
    wOKb b (t1 ++ t2) = (wOKb b t1 && wOKb (endSleep b t1) t2) := by
  induction t1 with
  | nil => intro b t2; simp [wOKb, endSleep]
  | cons e r ih =>
      intro b t2
      cases e with
      | sleep => exact ih true t2
      | read k => exact ih false t2
      | write k =>
          show (b && wOKb false (r ++ t2)) =
            ((b && wOKb false r) && wOKb (endSleep false r) t2)
          rw [ih false t2, Bool.and_assoc]

/-! ## Meta-mapping lookup lemmas -/

theorem metaGet_append (m kvs : List (String × MetaVal)) (k : String) :
    metaGet (m ++ kvs) k = (metaGet m k).or (metaGet kvs k) := by
  unfold metaGet
  rw [List.find?_append]
  cases h : m.find? (fun p => p.1 == k) <;> simp

theorem metaGet_append_ne (m kvs : List (String × MetaVal)) (k : String)
    (h : ∀ kv ∈ kvs, kv.1 ≠ k) : metaGet (m ++ kvs) k = metaGet m k := by
  rw [metaGet_append]
  have hnone : metaGet kvs k = none := by
    unfold metaGet
    rw [List.find?_eq_none.mpr]
    · rfl
    · intro kv hkv
      simp [h kv hkv]
  rw [hnone]
  cases metaGet m k <;> rfl

theorem metaGet_metaIf_ne (b : Bool) (kvs m : List (String × MetaVal)) (k : String)
    (h : ∀ kv ∈ kvs, kv.1 ≠ k) : metaGet (metaIf b kvs m) k = metaGet m k := by
  unfold metaIf
  split
  · exact metaGet_append_ne m kvs k h
  · rfl

theorem metaGet_mapValue_ne (key : String) (newv : MetaVal) (k : String) (h : k ≠ key) :
    ∀ m : List (String × MetaVal),
      metaGet (m.map (fun p => if p.1 == key then (p.1, newv) else p)) k = metaGet m k := by
  intro m
  induction m with
  | nil => rfl
  | cons p r ih =>
      simp only [List.map_cons]
      by_cases hp : p.1 == key
      · rw [if_pos hp]
        unfold metaGet
        rw [List.find?_cons, List.find?_cons]
        have hk : (p.1 == k) = false := by
          have : p.1 = key := by exact eq_of_beq hp
          simp [this, Ne.symm h]
        simp only [hk]
        exact ih
      · rw [if_neg hp]
        unfold metaGet
        rw [List.find?_cons, List.find?_cons]
        cases hk : (p.1 == k)
        · exact ih
        · rfl

theorem metaGet_mapValue_self (key : String) (newv : MetaVal) :
    ∀ m : List (String × MetaVal),
      metaGet (m.map (fun p => if p.1 == key then (p.1, newv) else p)) key =
        (metaGet m key).map (fun _ => newv) := by
  intro m
  induction m with
  | nil => rfl
  | cons p r ih =>
      simp only [List.map_cons]
      by_cases hp : p.1 == key
      · rw [if_pos hp]
        unfold metaGet
        rw [List.find?_cons, List.find?_cons]
        simp only [hp]
        rfl
      · rw [if_neg hp]
        unfold metaGet
        rw [List.find?_cons, List.find?_cons]
        simp only [Bool.not_eq_true] at hp
        simp only [hp]
        exact ih

theorem metaGet_pushRobots_ne (m : List (String × MetaVal)) (k : String)
    (h : k ≠ "rank_math_robots") : metaGet (pushRobots m) k = metaGet m k := by
  unfold pushRobots
  split
  · rename_i vs _
    exact metaGet_mapValue_ne "rank_math_robots" _ k h m
  · rename_i v _
    have hid : (fun p : String × MetaVal =>
        if p.1 == "rank_math_robots" then p else p) = id := by
      funext p
      split <;> rfl
    rw [hid, List.map_id]
  · refine metaGet_append_ne m _ k ?_
    intro kv hkv
    simp only [List.mem_singleton] at hkv
    rw [hkv]
    exact Ne.symm h

theorem metaGet_pushRobots_robots (m : List (String × MetaVal)) :
    metaGet (pushRobots m) "rank_math_robots" =
      match metaGet m "rank_math_robots" with
      | some (MetaVal.arr vs) => some (MetaVal.arr (vs ++ ["nofollow"]))
      | some (MetaVal.str v) => some (MetaVal.str v)
      | none => some (MetaVal.arr ["nofollow"]) := by
  unfold pushRobots
  split
  · rename_i vs hm
    rw [metaGet_mapValue_self "rank_math_robots" _ m, hm]
    rfl
  · rename_i v hm
    have hid : (fun p : String × MetaVal =>
        if p.1 == "rank_math_robots" then p else p) = id := by
      funext p
      split <;> rfl
    rw [hid, List.map_id, hm]
  · rename_i hm
    rw [metaGet_append, hm]
    rfl

/-! ## Concrete fixtures for witnesses and counterexamples -/

/-- A plain environment: default status draft, healthy title scan, no
JSON payloads, no local files, no downloads. -/
def cEnv : Env := ⟨"draft", false, fun _ => none, fun _ => false, fun _ => false⟩

/-- An environment whose paginated title scan fails with a network
error. -/
def cEnvErr : Env := ⟨"draft", true, fun _ => none, fun _ => false, fun _ => false⟩

/-- An empty remote store. -/
def emptyStore : Store := ⟨[], [], 1, 1, 1⟩

/-! ## C3: required-field validation -/

/-- C3: a row whose title or content is empty or whitespace-only after
trimming yields a RowResult with a Missing required field error and a
null action, performs no remote call at all, and leaves the store
unchanged. -/
theorem c3_missing_required (env : Env) (st : Store) (row : Row) (n : Nat)
    (h : jsTrim row.title = "" ∨ jsTrim row.content = "") :
    ((createOrUpdatePost env st row n).1.error = some "Missing required field: title" ∨
     (createOrUpdatePost env st row n).1.error = some "Missing required field: content") ∧
    (createOrUpdatePost env st row n).1.action = none ∧
    (createOrUpdatePost env st row n).2.2 = [] ∧
    (createOrUpdatePost env st row n).2.1 = st := by
  by_cases ht : jsTrim row.title = ""
  · simp only [createOrUpdatePost, if_pos ht]
    simp [errResult]
  · have hc : jsTrim row.content = "" := by
      rcases h with h | h
      · exact absurd h ht
      · exact h
    simp only [createOrUpdatePost, if_neg ht, if_pos hc]
    simp [errResult]

/-- Witness for C3 at a concrete input: a row with a whitespace-only
content field. -/
def c3Row : Row := { title := "A title", content := "   " }

theorem c3_missing_required_witness :
    (jsTrim c3Row.title = "" ∨ jsTrim c3Row.content = "") ∧
    ((createOrUpdatePost cEnv emptyStore c3Row 1).1.action = none ∧
     (createOrUpdatePost cEnv emptyStore c3Row 1).2.2 = []) := by
  have h : jsTrim c3Row.title = "" ∨ jsTrim c3Row.content = "" := Or.inr (by decide)
  have hr := c3_missing_required cEnv emptyStore c3Row 1 h
  exact ⟨h, hr.2.1, hr.2.2.1⟩

/-! ## C9: one result per row, in order -/

theorem createOrUpdatePost_rowNumber (env : Env) (st : Store) (row : Row) (n : Nat) :
    ((createOrUpdatePost env st row n).1).rowNumber = n := by
  simp only [createOrUpdatePost]
  split
  · rfl
  split
  · rfl
  split
  · rfl
  split
  · rfl
  · rfl

theorem processLoop_rowNumbers (env : Env) (rows : List Row) : ∀ (st : Store) (n : Nat),
    ((processLoop env st n rows).1).map RowResult.rowNumber = List.range' n rows.length := by
  induction rows with
  | nil => intro st n; rfl
  | cons r rs ih =>
      intro st n
      simp only [processLoop, List.map_cons, List.length_cons, List.range'_succ]
      rw [createOrUpdatePost_rowNumber, ih]

/-- C9: the batch driver appends exactly one RowResult per input row,
in input order: the result sequence carries the row numbers 1..n in
order, its length equals the number of rows, and the summary total is
the number of rows. -/
theorem c9_one_result_per_row (env : Env) (st : Store) (rows : List Row) :
    ((processCsvFile env st rows).1.results).map RowResult.rowNumber
        = List.range' 1 rows.length ∧
    (processCsvFile env st rows).1.results.length = rows.length ∧
    (processCsvFile env st rows).1.total = rows.length := by
  have h := processLoop_rowNumbers env rows st 1
  refine ⟨h, ?_, rfl⟩
  have hlen := congrArg List.length h
  simpa using hlen

/-! ## C10: a failed title scan is treated as no duplicate found -/

/-- C10: when the paginated duplicate scan fails with an HTTP or
network error, findPostByTitle returns null, so a valid row proceeds
to the slug check and the write: the row ends without an error, with a
created or updated action, and a post write appears in the trace —
even if the store contains a normalized-title duplicate. -/
theorem c10_scan_error_proceeds (env : Env) (st : Store) (row : Row) (n : Nat)
    (henv : env.titleScanErr = true)
    (ht : jsTrim row.title ≠ "") (hc : jsTrim row.content ≠ "") :
    (createOrUpdatePost env st row n).1.error = none ∧
    ((createOrUpdatePost env st row n).1.action = some "created" ∨
     (createOrUpdatePost env st row n).1.action = some "updated") ∧
    Ev.write WKind.post ∈ (createOrUpdatePost env st row n).2.2 := by
  have hdup : (findPostByTitle env (resolveRow env st row).2.1 (jsTrim row.title)).1 = none := by
    unfold findPostByTitle
    rw [if_neg (by rw [jsTrim_jsTrim]; exact ht), henv]
    simp
  simp only [createOrUpdatePost, if_neg ht, if_neg hc]
  rw [hdup]
  split
  · rename_i heq
    exact Option.noConfusion heq
  · split
    · exact ⟨rfl, Or.inr rfl, by simp⟩
    · exact ⟨rfl, Or.inl rfl, by simp⟩

/-- Witness for C10: a store that does contain a duplicate-titled post
is still written to when the scan errors out. -/
def c10Store : Store := ⟨[⟨7, "Hello World", "hw", "draft"⟩], [], 10, 20, 30⟩

def c10Row : Row := { title := "hello   world", content := "x" }

theorem c10_scan_error_proceeds_witness :
    cEnvErr.titleScanErr = true ∧ jsTrim c10Row.title ≠ "" ∧ jsTrim c10Row.content ≠ "" ∧
    ((createOrUpdatePost cEnvErr c10Store c10Row 1).1.error = none ∧
     Ev.write WKind.post ∈ (createOrUpdatePost cEnvErr c10Store c10Row 1).2.2) := by
  have hr := c10_scan_error_proceeds cEnvErr c10Store c10Row 1 (by decide) (by decide) (by decide)
  exact ⟨rfl, by decide, by decide, hr.1, hr.2.2⟩

/-! ## C5: term resolution is read-then-create and idempotent -/

theorem headMatch_self : ∀ l : List Char, headMatch l l = true := by
  intro l
  induction l with
  | nil => rfl
  | cons c r ih => simp [headMatch, ih]

theorem hasSub_self (l : List Char) : hasSub l l = true := by
  cases l with
  | nil => rfl
  | cons c r => simp [hasSub, headMatch_self]

/-- C5: resolving the same non-empty name twice in sequence yields the
same term identifier both times, the second resolution leaves the
store unchanged (it finds the term found or created by the first,
case-insensitively, and creates nothing), and the first resolution
returns an identifier. -/
theorem c5_term_resolution (st : Store) (name tax : String) (h : jsTrim name ≠ "") :
    (getOrCreateTerm (getOrCreateTerm st name tax).2.1 name tax).1 =
      (getOrCreateTerm st name tax).1 ∧
    (getOrCreateTerm (getOrCreateTerm st name tax).2.1 name tax).2.1 =
      (getOrCreateTerm st name tax).2.1 ∧
    ((getOrCreateTerm st name tax).1).isSome = true := by
  cases hfind : (searchTerms st tax (jsTrim name)).find?
      (fun t => lower t.name == lower (jsTrim name)) with
  | some t =>
      have h1 : getOrCreateTerm st name tax = (some t.id, st, [Ev.read RKind.terms]) := by
        simp only [getOrCreateTerm, if_neg h, hfind]
      rw [h1]
      simp [getOrCreateTerm, if_neg h, hfind]
  | none =>
      have h1 : getOrCreateTerm st name tax =
          (some st.nextTermId,
           { st with
               terms := st.terms ++ [⟨st.nextTermId, jsTrim name, tax⟩],
               nextTermId := st.nextTermId + 1 },
           [Ev.read RKind.terms, Ev.sleep, Ev.write WKind.term]) := by
        simp only [getOrCreateTerm, if_neg h, hfind]
      rw [h1]
      have hsearch :
          searchTerms
            { st with
                terms := st.terms ++ [⟨st.nextTermId, jsTrim name, tax⟩],
                nextTermId := st.nextTermId + 1 }
            tax (jsTrim name) =
          searchTerms st tax (jsTrim name) ++ [⟨st.nextTermId, jsTrim name, tax⟩] := by
        unfold searchTerms
        rw [List.filter_append]
        congr 1
        simp [hasSub_self]
      simp only [getOrCreateTerm, if_neg h, hsearch]
      rw [List.find?_append, hfind]
      simp

/-- Witness for C5 at a concrete input: resolving the name Tutorials
twice against an empty store. -/
theorem c5_term_resolution_witness :
    jsTrim "Tutorials" ≠ "" ∧
    ((getOrCreateTerm (getOrCreateTerm emptyStore "Tutorials" "categories").2.1
        "Tutorials" "categories").1 =
      (getOrCreateTerm emptyStore "Tutorials" "categories").1 ∧
     (getOrCreateTerm emptyStore "Tutorials" "categories").1.isSome = true) := by
  have hr := c5_term_resolution emptyStore "Tutorials" "categories" (by decide)
  exact ⟨by decide, hr.1, hr.2.2⟩

/-! ## Meta-mapping facts used by C7 and C8 -/

/-- Lookups of keys not written by the noindex, nofollow or schema
blocks fall through to the first eight blocks. -/
theorem metaGet_buildMeta_core (env : Env) (row : Row) (k : String)
    (h9a : k ≠ "_yoast_wpseo_meta-robots-noindex") (h9b : k ≠ "rank_math_robots")
    (h10 : k ≠ "_yoast_wpseo_meta-robots-nofollow") (h11 : k ≠ "_schema_json") :
    metaGet (buildMeta env row) k = metaGet (metaCore row) k := by
  simp only [buildMeta]
  have hm9 :
      metaGet
        (metaIf (jsTrim row.noindex != "" && lower row.noindex == "yes")
          [("_yoast_wpseo_meta-robots-noindex", MetaVal.str "1"),
           ("rank_math_robots", MetaVal.arr ["noindex"])] (metaCore row)) k
        = metaGet (metaCore row) k := by
    refine metaGet_metaIf_ne _ _ _ _ ?_
    intro kv hkv
    simp only [List.mem_cons, List.not_mem_nil, or_false] at hkv
    rcases hkv with rfl | rfl
    · exact Ne.symm h9a
    · exact Ne.symm h9b
  set m9 := metaIf (jsTrim row.noindex != "" && lower row.noindex == "yes")
    [("_yoast_wpseo_meta-robots-noindex", MetaVal.str "1"),
     ("rank_math_robots", MetaVal.arr ["noindex"])] (metaCore row) with hm9def
  have hm10 :
      metaGet
        (if jsTrim row.nofollow != "" && lower row.nofollow == "yes" then
          pushRobots (m9 ++ [("_yoast_wpseo_meta-robots-nofollow", MetaVal.str "1")])
        else m9) k = metaGet m9 k := by
    split
    · rw [metaGet_pushRobots_ne _ _ h9b]
      refine metaGet_append_ne _ _ _ ?_
      intro kv hkv
      simp only [List.mem_singleton] at hkv
      rw [hkv]
      exact Ne.symm h10
    · rfl
  set m10 := if jsTrim row.nofollow != "" && lower row.nofollow == "yes" then
      pushRobots (m9 ++ [("_yoast_wpseo_meta-robots-nofollow", MetaVal.str "1")])
    else m9 with hm10def
  have hm11 :
      metaGet
        (if jsTrim row.schema_json != "" then
          match env.parseJson row.schema_json with
          | some j => m10 ++ [("_schema_json", MetaVal.str j)]
          | none => m10
        else m10) k = metaGet m10 k := by
    split
    · cases env.parseJson row.schema_json with
      | some j =>
          refine metaGet_append_ne _ _ _ ?_
          intro kv hkv
          simp only [List.mem_singleton] at hkv
          rw [hkv]
          exact Ne.symm h11
      | none => rfl
    · rfl
  rw [hm11, hm10, hm9]

/-- A helper discharging key-difference side conditions for two-entry
blocks. -/
theorem pair2_keys_ne {α : Type} (k1 k2 k : String) (v1 v2 : α)
    (h1 : k1 ≠ k) (h2 : k2 ≠ k) :
    ∀ kv ∈ [(k1, v1), (k2, v2)], kv.1 ≠ k := by
  intro kv hkv
  simp only [List.mem_cons, List.not_mem_nil, or_false] at hkv
  rcases hkv with rfl | rfl
  · exact h1
  · exact h2

/-- A helper discharging key-difference side conditions for one-entry
blocks. -/
theorem pair1_keys_ne {α : Type} (k1 k : String) (v1 : α) (h1 : k1 ≠ k) :
    ∀ kv ∈ [(k1, v1)], kv.1 ≠ k := by
  intro kv hkv
  simp only [List.mem_singleton] at hkv
  rw [hkv]
  exact h1

/-- Lookups of keys not written by the first eight blocks are absent
from metaCore. -/
theorem metaGet_metaCore_ne (row : Row) (k : String)
    (h1 : k ≠ "_yoast_wpseo_metadesc") (h2 : k ≠ "rank_math_description")
    (h3 : k ≠ "_yoast_wpseo_focuskw") (h4 : k ≠ "rank_math_focus_keyword")
    (h5 : k ≠ "_yoast_wpseo_title") (h6 : k ≠ "rank_math_title")
    (h7 : k ≠ "_yoast_wpseo_opengraph-title") (h8 : k ≠ "_yoast_wpseo_opengraph-description")
    (h9 : k ≠ "_yoast_wpseo_twitter-title") (h10 : k ≠ "_yoast_wpseo_twitter-description")
    (h11 : k ≠ "_yoast_wpseo_canonical") (h12 : k ≠ "rank_math_canonical_url") :
    metaGet (metaCore row) k = none := by
  simp only [metaCore]
  rw [metaGet_metaIf_ne _ _ _ _ (pair2_keys_ne _ _ _ _ _ (Ne.symm h11) (Ne.symm h12))]
  rw [metaGet_metaIf_ne _ _ _ _ (pair1_keys_ne _ _ _ (Ne.symm h10))]
  rw [metaGet_metaIf_ne _ _ _ _ (pair1_keys_ne _ _ _ (Ne.symm h9))]
  rw [metaGet_metaIf_ne _ _ _ _ (pair1_keys_ne _ _ _ (Ne.symm h8))]
  rw [metaGet_metaIf_ne _ _ _ _ (pair1_keys_ne _ _ _ (Ne.symm h7))]
  rw [metaGet_metaIf_ne _ _ _ _ (pair2_keys_ne _ _ _ _ _ (Ne.symm h5) (Ne.symm h6))]
  rw [metaGet_metaIf_ne _ _ _ _ (pair2_keys_ne _ _ _ _ _ (Ne.symm h3) (Ne.symm h4))]
  rw [metaGet_metaIf_ne _ _ _ _ (pair2_keys_ne _ _ _ _ _ (Ne.symm h1) (Ne.symm h2))]
  rfl

/-! ## C8: keyword precedence -/

/-- The keyword stored by the keyword block, for either of its two
keys. -/
theorem metaCore_keyword (row : Row)
    (h : (jsTrim row.focus_keyword != "" || jsTrim row.primary_keyword != "") = true) :
    ∀ k, (k = "_yoast_wpseo_focuskw" ∨ k = "rank_math_focus_keyword") →
    metaGet (metaCore row) k =
      some (MetaVal.str (jsTrim (if row.focus_keyword != "" then row.focus_keyword
        else row.primary_keyword))) := by
  intro k hk
  rcases hk with rfl | rfl
  all_goals
    simp only [metaCore]
    rw [metaGet_metaIf_ne _ _ _ _ (pair2_keys_ne _ _ _ _ _ (by decide) (by decide))]
    rw [metaGet_metaIf_ne _ _ _ _ (pair1_keys_ne _ _ _ (by decide))]
    rw [metaGet_metaIf_ne _ _ _ _ (pair1_keys_ne _ _ _ (by decide))]
    rw [metaGet_metaIf_ne _ _ _ _ (pair1_keys_ne _ _ _ (by decide))]
    rw [metaGet_metaIf_ne _ _ _ _ (pair1_keys_ne _ _ _ (by decide))]
    rw [metaGet_metaIf_ne _ _ _ _ (pair2_keys_ne _ _ _ _ _ (by decide) (by decide))]
    rw [metaIf, if_pos h, metaGet_append]
    rw [metaGet_metaIf_ne _ _ _ _ (pair2_keys_ne _ _ _ _ _ (by decide) (by decide))]
    rfl

/-- C8 counterexample: a whitespace-only focusKeyword together with a
non-empty primaryKeyword stores the empty string, not the
primaryKeyword, because the source applies JavaScript truthiness to
the untrimmed focus_keyword before trimming. -/
def c8Row : Row :=
  { title := "t", content := "c", focus_keyword := " ", primary_keyword := "kw" }

theorem c8_counterexample :
    jsTrim c8Row.focus_keyword = "" ∧ jsTrim c8Row.primary_keyword = "kw" ∧
    metaGet (buildMeta cEnv c8Row) "_yoast_wpseo_focuskw" = some (MetaVal.str "") ∧
    MetaVal.str "" ≠ MetaVal.str (jsTrim c8Row.primary_keyword) := by decide

/-- C8 amended: when at least one keyword field is non-blank after
trimming, the stored keyword is the trim of the first field that is
non-empty before trimming, with focus_keyword taking precedence by
JavaScript truthiness; a whitespace-only focus_keyword therefore wins
over a non-empty primary_keyword and stores the empty string. -/
theorem c8_keyword_precedence (env : Env) (row : Row)
    (h : jsTrim row.focus_keyword ≠ "" ∨ jsTrim row.primary_keyword ≠ "") :
    metaGet (buildMeta env row) "_yoast_wpseo_focuskw" =
      some (MetaVal.str (jsTrim (if row.focus_keyword != "" then row.focus_keyword
        else row.primary_keyword))) ∧
    metaGet (buildMeta env row) "rank_math_focus_keyword" =
      some (MetaVal.str (jsTrim (if row.focus_keyword != "" then row.focus_keyword
        else row.primary_keyword))) := by
  have hb : (jsTrim row.focus_keyword != "" || jsTrim row.primary_keyword != "") = true := by
    rcases h with h | h <;> simp [h]
  constructor
  · rw [metaGet_buildMeta_core env row _ (by decide) (by decide) (by decide) (by decide)]
    exact metaCore_keyword row hb _ (Or.inl rfl)
  · rw [metaGet_buildMeta_core env row _ (by decide) (by decide) (by decide) (by decide)]
    exact metaCore_keyword row hb _ (Or.inr rfl)

/-- Witness for C8 amended: focusKeyword blank before trimming, so the
primaryKeyword is used. -/
def c8bRow : Row := { title := "t", content := "c", primary_keyword := "kw" }

theorem c8_keyword_precedence_witness :
    (jsTrim c8bRow.focus_keyword ≠ "" ∨ jsTrim c8bRow.primary_keyword ≠ "") ∧
    metaGet (buildMeta cEnv c8bRow) "_yoast_wpseo_focuskw" = some (MetaVal.str "kw") := by
  have h : jsTrim c8bRow.focus_keyword ≠ "" ∨ jsTrim c8bRow.primary_keyword ≠ "" :=
    Or.inr (by decide)
  have hr := c8_keyword_precedence cEnv c8bRow h
  refine ⟨h, ?_⟩
  rw [hr.1]
  decide

/-! ## C7: the noindex sentinel -/

theorem rtrim_nil_allWS : ∀ l : List Char, rtrim l = [] → ∀ c ∈ l, isWS c = true := by
  intro l
  induction l with
  | nil => intro _ c hc; simp at hc
  | cons d r ih =>
      intro h c hc
      rw [rtrim_cons] at h
      split at h
      · rename_i h2
        rcases List.mem_cons.mp hc with rfl | hc2
        · exact h2.2
        · exact ih h2.1 c hc2
      · exact absurd h (by simp)

theorem ltrim_nil_allWS : ∀ l : List Char, ltrim l = [] → ∀ c ∈ l, isWS c = true := by
  intro l
  induction l with
  | nil => intro _ c hc; simp at hc
  | cons d r ih =>
      intro h c hc
      rw [ltrim, List.dropWhile_cons] at h
      split at h
      · rename_i hd
        rcases List.mem_cons.mp hc with rfl | hc2
        · exact hd
        · exact ih h c hc2
      · exact absurd h (by simp)

/-- Every list splits as its right-trim followed by trailing
whitespace. -/
theorem rtrim_decomp : ∀ l : List Char, ∃ w, l = rtrim l ++ w ∧ ∀ c ∈ w, isWS c = true := by
  intro l
  induction l with
  | nil => exact ⟨[], rfl, by simp⟩
  | cons d r ih =>
      rw [rtrim_cons]
      by_cases h2 : rtrim r = [] ∧ isWS d = true
      · rw [if_pos h2]
        refine ⟨d :: r, by simp, ?_⟩
        intro c hc
        rcases List.mem_cons.mp hc with rfl | hc2
        · exact h2.2
        · exact rtrim_nil_allWS r h2.1 c hc2
      · rw [if_neg h2]
        obtain ⟨w, hw1, hw2⟩ := ih
        refine ⟨w, ?_, hw2⟩
        rw [List.cons_append, ← hw1]

theorem trimList_nil_allWS (l : List Char) (h : trimList l = []) : ∀ c ∈ l, isWS c = true := by
  obtain ⟨w, hw1, hw2⟩ := rtrim_decomp l
  have h2 : ∀ c ∈ rtrim l, isWS c = true := ltrim_nil_allWS (rtrim l) h
  intro c hc
  rw [hw1] at hc
  rcases List.mem_append.mp hc with hc | hc
  · exact h2 c hc
  · exact hw2 c hc

/-- A string whose lower-casing is the literal yes cannot trim to the
empty string. -/
theorem lower_yes_trim (s : String) (h : lower s = "yes") : jsTrim s ≠ "" := by
  intro he
  have hdata : trimList s.data = [] := congrArg String.data he
  have hall := trimList_nil_allWS s.data hdata
  have hmap : s.data.map Char.toLower = ['y', 'e', 's'] := congrArg String.data h
  cases hd : s.data with
  | nil => rw [hd] at hmap; simp at hmap
  | cons a r =>
      rw [hd] at hmap
      simp only [List.map_cons, List.cons.injEq] at hmap
      have haws : isWS a = true := hall a (by rw [hd]; exact List.mem_cons_self a r)
      have hws2 : isWS (Char.toLower a) = true := by rw [isWS_toLower]; exact haws
      rw [hmap.1] at hws2
      exact absurd hws2 (by decide)

/-- Is the no-index marker present under both metadata conventions:
the Yoast key, and the value noindex inside the Rank Math robots
array? -/
def hasNoindexMarkers (m : List (String × MetaVal)) : Bool :=
  (metaGet m "_yoast_wpseo_meta-robots-noindex").isSome &&
  (match metaGet m "rank_math_robots" with
   | some (MetaVal.arr vs) => vs.contains "noindex"
   | _ => false)

/-- C7 (intended semantics of the hyphenated meta assignments): the
payload carries the no-index marker under both the Yoast and the Rank
Math convention exactly when the noindex field lower-cases to the
literal yes; any other value, including empty and absent, sets
neither. -/
theorem c7_noindex_markers (env : Env) (row : Row) :
    hasNoindexMarkers (buildMeta env row) = (lower row.noindex == "yes") := by
  by_cases hyes : lower row.noindex = "yes"
  · have htrim : jsTrim row.noindex ≠ "" := lower_yes_trim row.noindex hyes
    have hcond : (jsTrim row.noindex != "" && lower row.noindex == "yes") = true := by
      simp [htrim, hyes]
    have hrhs : (lower row.noindex == "yes") = true := by simp [hyes]
    rw [hrhs]
    simp only [buildMeta, metaIf, hcond, if_true]
    set m9 := metaCore row ++
      [("_yoast_wpseo_meta-robots-noindex", MetaVal.str "1"),
       ("rank_math_robots", MetaVal.arr ["noindex"])] with hm9
    have hA : metaGet m9 "_yoast_wpseo_meta-robots-noindex" = some (MetaVal.str "1") := by
      rw [hm9, metaGet_append]
      rw [metaGet_metaCore_ne row _ (by decide) (by decide) (by decide) (by decide) (by decide)
        (by decide) (by decide) (by decide) (by decide) (by decide) (by decide) (by decide)]
      rfl
    have hB : metaGet m9 "rank_math_robots" = some (MetaVal.arr ["noindex"]) := by
      rw [hm9, metaGet_append]
      rw [metaGet_metaCore_ne row _ (by decide) (by decide) (by decide) (by decide) (by decide)
        (by decide) (by decide) (by decide) (by decide) (by decide) (by decide) (by decide)]
      rfl
    set m10 := if jsTrim row.nofollow != "" && lower row.nofollow == "yes" then
        pushRobots (m9 ++ [("_yoast_wpseo_meta-robots-nofollow", MetaVal.str "1")])
      else m9 with hm10
    have hC : metaGet m10 "_yoast_wpseo_meta-robots-noindex" = some (MetaVal.str "1") := by
      rw [hm10]
      split
      · rw [metaGet_pushRobots_ne _ _ (by decide),
          metaGet_append_ne _ _ _ (pair1_keys_ne _ _ _ (by decide))]
        exact hA
      · exact hA
    have hD : ∃ vs, metaGet m10 "rank_math_robots" = some (MetaVal.arr vs) ∧
        "noindex" ∈ vs := by
      rw [hm10]
      split
      · refine ⟨["noindex", "nofollow"], ?_, by decide⟩
        rw [metaGet_pushRobots_robots,
          metaGet_append_ne _ _ _ (pair1_keys_ne _ _ _ (by decide)), hB]
        rfl
      · exact ⟨["noindex"], hB, by decide⟩
    obtain ⟨vs, hD1, hD2⟩ := hD
    have hE : metaGet
        (if jsTrim row.schema_json != "" then
          match env.parseJson row.schema_json with
          | some j => m10 ++ [("_schema_json", MetaVal.str j)]
          | none => m10
        else m10) "_yoast_wpseo_meta-robots-noindex" = some (MetaVal.str "1") := by
      split
      · cases env.parseJson row.schema_json with
        | some j =>
            rw [metaGet_append_ne _ _ _ (pair1_keys_ne _ _ _ (by decide))]
            exact hC
        | none => exact hC
      · exact hC
    have hF : metaGet
        (if jsTrim row.schema_json != "" then
          match env.parseJson row.schema_json with
          | some j => m10 ++ [("_schema_json", MetaVal.str j)]
          | none => m10
        else m10) "rank_math_robots" = some (MetaVal.arr vs) := by
      split
      · cases env.parseJson row.schema_json with
        | some j =>
            rw [metaGet_append_ne _ _ _ (pair1_keys_ne _ _ _ (by decide))]
            exact hD1
        | none => exact hD1
      · exact hD1
    rw [hasNoindexMarkers, hE, hF]
    simp only [Option.isSome_some, Bool.true_and]
    exact List.elem_eq_true_of_mem hD2
  · have hcond : (jsTrim row.noindex != "" && lower row.noindex == "yes") = false := by
      have : (lower row.noindex == "yes") = false := by
        simp [hyes]
      simp [this]
    have hrhs : (lower row.noindex == "yes") = false := by simp [hyes]
    rw [hrhs]
    simp only [buildMeta, metaIf, hcond, Bool.false_eq_true, if_false]
    set m10 := if jsTrim row.nofollow != "" && lower row.nofollow == "yes" then
        pushRobots (metaCore row ++ [("_yoast_wpseo_meta-robots-nofollow", MetaVal.str "1")])
      else metaCore row with hm10
    have hcoreA : metaGet (metaCore row) "_yoast_wpseo_meta-robots-noindex" = none := by
      rw [metaGet_metaCore_ne row _ (by decide) (by decide) (by decide) (by decide) (by decide)
        (by decide) (by decide) (by decide) (by decide) (by decide) (by decide) (by decide)]
    have hC : metaGet m10 "_yoast_wpseo_meta-robots-noindex" = none := by
      rw [hm10]
      split
      · rw [metaGet_pushRobots_ne _ _ (by decide),
          metaGet_append_ne _ _ _ (pair1_keys_ne _ _ _ (by decide))]
        exact hcoreA
      · exact hcoreA
    have hE : metaGet
        (if jsTrim row.schema_json != "" then
          match env.parseJson row.schema_json with
          | some j => m10 ++ [("_schema_json", MetaVal.str j)]
          | none => m10
        else m10) "_yoast_wpseo_meta-robots-noindex" = none := by
      split
      · cases env.parseJson row.schema_json with
        | some j =>
            rw [metaGet_append_ne _ _ _ (pair1_keys_ne _ _ _ (by decide))]
            exact hC
        | none => exact hC
      · exact hC
    rw [hasNoindexMarkers, hE]
    rfl

/-! ## C6: sleeps, writes and reads -/

/-- C6 counterexample: a row with one pre-existing category, where the
unconditional sleep that resolveTerms inserts after every term
resolution lands immediately before the read-only title scan, so the
trace violates the never-before-a-read half of the claimed discipline
even though every write is sleep-preceded. -/
def c6Store : Store := ⟨[], [⟨5, "x", "categories"⟩], 10, 20, 30⟩

def c6Row : Row := { title := "t", content := "c", categories := "x" }

theorem c6_counterexample :
    (createOrUpdatePost cEnv c6Store c6Row 1).2.2 =
      [Ev.read RKind.terms, Ev.sleep, Ev.read RKind.titleScan, Ev.sleep,
       Ev.write WKind.post] ∧
    delayDiscipline (createOrUpdatePost cEnv c6Store c6Row 1).2.2 = false ∧
    wOKb false (createOrUpdatePost cEnv c6Store c6Row 1).2.2 = true := by decide

theorem wOKb_reads (tr : List Ev) (h : ∀ e ∈ tr, ∃ k, e = Ev.read k) :
    ∀ b, wOKb b tr = true := by
  induction tr with
  | nil => intro b; rfl
  | cons e r ih =>
      intro b
      obtain ⟨k, hk⟩ := h e (by simp)
      subst hk
      show wOKb false r = true
      exact ih (fun e he => h e (by simp [he])) false

theorem wOKb_sleep_only (b : Bool) : wOKb b [Ev.sleep] = true := rfl

theorem wOKb_sleep_write (b : Bool) (k : WKind) : wOKb b [Ev.sleep, Ev.write k] = true := rfl

theorem wOKb_getOrCreateTerm (st : Store) (n tax : String) (b : Bool) :
    wOKb b (getOrCreateTerm st n tax).2.2 = true := by
  simp only [getOrCreateTerm]
  split
  · rfl
  · split <;> rfl

theorem wOKb_resolveLoop (tax : String) (ns : List String) : ∀ (st : Store) (b : Bool),
    wOKb b (resolveLoop tax st ns).2.2 = true := by
  induction ns with
  | nil => intro st b; rfl
  | cons n rest ih =>
      intro st b
      simp only [resolveLoop]
      rw [wOKb_append, wOKb_append, wOKb_getOrCreateTerm, wOKb_sleep_only]
      simp only [Bool.true_and]
      exact ih _ _

theorem wOKb_resolveTerms (st : Store) (s tax : String) (b : Bool) :
    wOKb b (resolveTerms st s tax).2.2 = true := by
  unfold resolveTerms
  split
  · rfl
  · exact wOKb_resolveLoop tax _ st b

theorem wOKb_uploadMedia (env : Env) (st : Store) (p : String) (b : Bool) :
    wOKb b (uploadMedia env st p).2.2 = true := by
  unfold uploadMedia
  split
  · rfl
  split
  · split <;> rfl
  · split <;> rfl

theorem wOKb_resolveRow (env : Env) (st : Store) (row : Row) (b : Bool) :
    wOKb b (resolveRow env st row).2.2 = true := by
  unfold resolveRow
  rw [wOKb_append, wOKb_append]
  have h1 : ∀ (st' : Store) (s tax : String) (b' : Bool),
      wOKb b' (if jsTrim s ≠ "" then resolveTerms st' s tax else ([], st', [])).2.2 = true := by
    intro st' s tax b'
    split
    · exact wOKb_resolveTerms st' s tax b'
    · rfl
  have h2 : ∀ (st' : Store) (ip : String) (b' : Bool),
      wOKb b' (if ip ≠ "" then uploadMedia env st' ip else (none, st', [])).2.2 = true := by
    intro st' ip b'
    split
    · exact wOKb_uploadMedia env st' ip b'
    · rfl
  rw [h1, h1, h2]
  rfl

theorem titleScanLoop_reads (norm : String) (posts : List Post) :
    ∀ (fuel page : Nat), ∀ e ∈ (titleScanLoop norm posts page fuel).2, ∃ k, e = Ev.read k := by
  intro fuel
  induction fuel with
  | zero => intro page e he; simp [titleScanLoop] at he
  | succ f ih =>
      intro page e he
      rw [titleScanLoop] at he
      revert he
      split
      · intro he
        simp at he
        exact ⟨RKind.titleScan, he⟩
      · split
        · intro he
          simp at he
          exact ⟨RKind.titleScan, he⟩
        · split
          · intro he
            simp at he
            exact ⟨RKind.titleScan, he⟩
          · split
            · intro he
              simp at he
              exact ⟨RKind.titleScan, he⟩
            · intro he
              simp only [List.mem_cons] at he
              rcases he with rfl | he
              · exact ⟨RKind.titleScan, rfl⟩
              · exact ih (page + 1) e he

theorem findPostByTitle_reads (env : Env) (st : Store) (title : String) :
    ∀ e ∈ (findPostByTitle env st title).2, ∃ k, e = Ev.read k := by
  unfold findPostByTitle
  split
  · intro e he; simp at he
  · split
    · intro e he
      simp at he
      exact ⟨RKind.titleScan, he⟩
    · exact titleScanLoop_reads _ _ 10 1

theorem wOKb_findPostByTitle (env : Env) (st : Store) (title : String) (b : Bool) :
    wOKb b (findPostByTitle env st title).2 = true :=
  wOKb_reads _ (findPostByTitle_reads env st title) b

theorem wOKb_findPostBySlug (st : Store) (slug : String) (b : Bool) :
    wOKb b (findPostBySlug st slug).2 = true := by
  unfold findPostBySlug
  split
  · rfl
  · rfl

theorem wOKb_createOrUpdatePost (env : Env) (st : Store) (row : Row) (n : Nat) (b : Bool) :
    wOKb b (createOrUpdatePost env st row n).2.2 = true := by
  simp only [createOrUpdatePost]
  split
  · rfl
  split
  · rfl
  split
  · rw [wOKb_append, wOKb_resolveRow, wOKb_findPostByTitle]
    rfl
  · have hsl : ∀ b' : Bool,
        wOKb b'
          (match (if jsTrim row.slug ≠ "" then some (jsTrim row.slug) else none) with
            | some s => findPostBySlug (resolveRow env st row).2.1 s
            | none => (none, [])).2 = true := by
      intro b'
      split
      · exact wOKb_findPostBySlug _ _ b'
      · rfl
    split
    · rw [wOKb_append, wOKb_append, wOKb_append, wOKb_resolveRow, wOKb_findPostByTitle,
        hsl, wOKb_sleep_write]
      rfl
    · rw [wOKb_append, wOKb_append, wOKb_append, wOKb_resolveRow, wOKb_findPostByTitle,
        hsl, wOKb_sleep_write]
      rfl

theorem wOKb_processLoop (env : Env) (rows : List Row) : ∀ (st : Store) (n : Nat) (b : Bool),
    wOKb b (processLoop env st n rows).2.2 = true := by
  induction rows with
  | nil => intro st n b; rfl
  | cons r rs ih =>
      intro st n b
      simp only [processLoop]
      rw [wOKb_append, wOKb_createOrUpdatePost]
      simp only [Bool.true_and]
      exact ih _ _ _

/-- C6 amended: in every execution trace of the batch driver, every
state-mutating remote call (term create, media upload, post write) is
immediately preceded by a sleep; but sleeps are not confined to
writes — resolveTerms also sleeps after every term resolution, so a
sleep may fall immediately before a read-only lookup. -/
theorem c6_writes_sleep_preceded (env : Env) (st : Store) (rows : List Row) :
    wOKb false (processCsvFile env st rows).2.2 = true := by
  unfold processCsvFile
  exact wOKb_processLoop env rows st 1 false

/-! ## C1: duplicate-title rejection -/

/-- The row error is the duplicate-title rejection produced by
createOrUpdatePost. -/
def isDupError (e : Option String) : Prop := ∃ t i, e = some (dupErrMsg t i)

/-- C1 counterexample: a whitespace-only title normalizes to the empty
string, which equals the normalized title of a stored post whose title
is nothing but markup; the claim as stated then demands a
duplicate-title rejection, but the engine rejects the row with the
Missing required field error before the duplicate guard runs. -/
def c1Store : Store := ⟨[⟨1, "<br>", "p", "publish"⟩], [], 10, 20, 30⟩

def c1Row : Row := { title := "   ", content := "x" }

theorem c1_counterexample :
    normalizeTitle c1Row.title = normalizeTitle ("<br>" : String) ∧
    (⟨1, "<br>", "p", "publish"⟩ : Post) ∈ scannedPosts c1Store ∧
    (createOrUpdatePost cEnv c1Store c1Row 1).1.error =
      some "Missing required field: title" ∧
    ¬ isDupError (createOrUpdatePost cEnv c1Store c1Row 1).1.error := by
  refine ⟨by decide, by decide, by decide, ?_⟩
  rintro ⟨t, i, hti⟩
  have he : (createOrUpdatePost cEnv c1Store c1Row 1).1.error =
      some "Missing required field: title" := by decide
  rw [he] at hti
  have h2 : "Missing required field: title" = dupErrMsg t i := by
    injection hti
  have hlen := congrArg String.length h2
  rw [dupErrMsg] at hlen
  simp only [String.length_append] at hlen
  have e1 : ("Missing required field: title" : String).length = 29 := rfl
  have e2 : ("Post with title \"" : String).length = 17 := rfl
  have e3 : ("\" already exists (ID: " : String).length = 22 := rfl
  rw [e1, e2, e3] at hlen
  omega

/-! ## C4: the normalization pipeline is idempotent

The proof establishes five invariants of the pipeline output — no
opening bracket is followed by a closing bracket (tagOK), no ampersand
starts a removable entity (entOK), whitespace is collapsed (colOK),
every character is lower case (lowOK), and the ends are trimmed — and
shows each pipeline stage is the identity on inputs satisfying its
invariant. -/

/-- No HTML tag can match: every opening angle bracket has no closing
bracket anywhere after it. -/
def tagOK : List Char → Prop
  | [] => True
  | c :: r => (c = '<' → '>' ∉ r) ∧ tagOK r

/-- No removable entity can match: every ampersand is immediately
followed by a semicolon or has no semicolon anywhere after it. -/
def entOK : List Char → Prop
  | [] => True
  | c :: r => (c = '&' → r.head? = some ';' ∨ ';' ∉ r) ∧ entOK r

/-- The head, if any, is not whitespace. -/
def headNb : List Char → Prop
  | [] => True
  | c :: _ => isWS c = false

/-- Whitespace is collapsed: every whitespace character is a plain
space and is not followed by another whitespace character. -/
def colOK : List Char → Prop
  | [] => True
  | c :: r => (isWS c = true → c = ' ' ∧ headNb r) ∧ colOK r

/-- Every character is fixed by lower-casing. -/
def lowOK (l : List Char) : Prop := ∀ c ∈ l, Char.toLower c = c

/-- Whitespace characters are none of the scanner trigger
characters. -/
theorem isWS_cases (c : Char) (h : isWS c = true) :
    c = ' ' ∨ c = '\t' ∨ c = '\n' ∨ c = '\r' := by
  simp only [isWS, Bool.or_eq_true, beq_iff_eq] at h
  tauto

theorem ws_ne_trigger (c : Char) (h : isWS c = true) :
    c ≠ '<' ∧ c ≠ '>' ∧ c ≠ '&' ∧ c ≠ ';' := by
  rcases isWS_cases c h with rfl | rfl | rfl | rfl <;> exact ⟨by decide, by decide, by decide, by decide⟩

theorem collapseF_nil : ∀ fuel, collapseF fuel [] = [] := by
  intro fuel
  cases fuel <;> rfl

theorem catchAllF_nil : ∀ fuel, catchAllF fuel [] = [] := by
  intro fuel
  cases fuel <;> rfl

theorem stripTagsF_nil : ∀ fuel, stripTagsF fuel [] = [] := by
  intro fuel
  cases fuel <;> rfl

theorem replF_nil (pat rep : List Char) : ∀ fuel, replF pat rep fuel [] = [] := by
  intro fuel
  cases fuel <;> rfl

/-! Fuel irrelevance: with enough fuel the scanners do not depend on
the exact amount. -/

theorem stripTagsF_irrel : ∀ (f1 : Nat) (l : List Char) (f2 : Nat),
    l.length ≤ f1 → l.length ≤ f2 → stripTagsF f1 l = stripTagsF f2 l := by
  intro f1
  induction f1 with
  | zero =>
      intro l f2 h1 h2
      have : l = [] := List.eq_nil_of_length_eq_zero (by omega)
      subst this
      rw [stripTagsF_nil, stripTagsF_nil]
  | succ f ih =>
      intro l f2 h1 h2
      cases l with
      | nil => rw [stripTagsF_nil, stripTagsF_nil]
      | cons c r =>
          cases f2 with
          | zero => simp at h2
          | succ g =>
              rw [stripTagsF, stripTagsF]
              split
              · apply ih
                · have hd : ((r.dropWhile (fun d => d ≠ '>')).drop 1).length ≤ r.length := by
                    have h3 : (r.dropWhile (fun d => d ≠ '>')).length ≤ r.length :=
                      (List.dropWhile_sublist _).length_le
                    have h4 := List.length_drop 1 (r.dropWhile (fun d => d ≠ '>'))
                    omega
                  simp only [List.length_cons] at h1
                  omega
                · have hd : ((r.dropWhile (fun d => d ≠ '>')).drop 1).length ≤ r.length := by
                    have h3 : (r.dropWhile (fun d => d ≠ '>')).length ≤ r.length :=
                      (List.dropWhile_sublist _).length_le
                    have h4 := List.length_drop 1 (r.dropWhile (fun d => d ≠ '>'))
                    omega
                  simp only [List.length_cons] at h2
                  omega
              · congr 1
                apply ih
                · simp only [List.length_cons] at h1
                  omega
                · simp only [List.length_cons] at h2
                  omega

theorem catchAllF_irrel : ∀ (f1 : Nat) (l : List Char) (f2 : Nat),
    l.length ≤ f1 → l.length ≤ f2 → catchAllF f1 l = catchAllF f2 l := by
  intro f1
  induction f1 with
  | zero =>
      intro l f2 h1 h2
      have : l = [] := List.eq_nil_of_length_eq_zero (by omega)
      subst this
      rw [catchAllF_nil, catchAllF_nil]
  | succ f ih =>
      intro l f2 h1 h2
      cases l with
      | nil => rw [catchAllF_nil, catchAllF_nil]
      | cons c r =>
          cases f2 with
          | zero => simp at h2
          | succ g =>
              rw [catchAllF, catchAllF]
              split
              · apply ih
                · have hd : ((r.dropWhile (fun d => d ≠ ';')).drop 1).length ≤ r.length := by
                    have h3 : (r.dropWhile (fun d => d ≠ ';')).length ≤ r.length :=
                      (List.dropWhile_sublist _).length_le
                    have h4 := List.length_drop 1 (r.dropWhile (fun d => d ≠ ';'))
                    omega
                  simp only [List.length_cons] at h1
                  omega
                · have hd : ((r.dropWhile (fun d => d ≠ ';')).drop 1).length ≤ r.length := by
                    have h3 : (r.dropWhile (fun d => d ≠ ';')).length ≤ r.length :=
                      (List.dropWhile_sublist _).length_le
                    have h4 := List.length_drop 1 (r.dropWhile (fun d => d ≠ ';'))
                    omega
                  simp only [List.length_cons] at h2
                  omega
              · congr 1
                apply ih
                · simp only [List.length_cons] at h1
                  omega
                · simp only [List.length_cons] at h2
                  omega

theorem collapseF_irrel : ∀ (f1 : Nat) (l : List Char) (f2 : Nat),
    l.length ≤ f1 → l.length ≤ f2 → collapseF f1 l = collapseF f2 l := by
  intro f1
  induction f1 with
  | zero =>
      intro l f2 h1 h2
      have : l = [] := List.eq_nil_of_length_eq_zero (by omega)
      subst this
      rw [collapseF_nil, collapseF_nil]
  | succ f ih =>
      intro l f2 h1 h2
      cases l with
      | nil => rw [collapseF_nil, collapseF_nil]
      | cons c r =>
          cases f2 with
          | zero => simp at h2
          | succ g =>
              rw [collapseF, collapseF]
              split
              · congr 1
                apply ih
                · have h3 : (r.dropWhile isWS).length ≤ r.length :=
                    (List.dropWhile_sublist _).length_le
                  simp only [List.length_cons] at h1
                  omega
                · have h3 : (r.dropWhile isWS).length ≤ r.length :=
                    (List.dropWhile_sublist _).length_le
                  simp only [List.length_cons] at h2
                  omega
              · congr 1
                apply ih
                · simp only [List.length_cons] at h1
                  omega
                · simp only [List.length_cons] at h2
                  omega

theorem replF_irrel (pat rep : List Char) : ∀ (f1 : Nat) (l : List Char) (f2 : Nat),
    l.length ≤ f1 → l.length ≤ f2 → replF pat rep f1 l = replF pat rep f2 l := by
  intro f1
  induction f1 with
  | zero =>
      intro l f2 h1 h2
      have : l = [] := List.eq_nil_of_length_eq_zero (by omega)
      subst this
      rw [replF_nil, replF_nil]
  | succ f ih =>
      intro l f2 h1 h2
      cases l with
      | nil => rw [replF_nil, replF_nil]
      | cons c r =>
          cases f2 with
          | zero => simp at h2
          | succ g =>
              rw [replF, replF]
              split
              · congr 1
                apply ih
                · have h3 : (r.drop (pat.length - 1)).length ≤ r.length := by
                    have := List.length_drop (pat.length - 1) r
                    omega
                  simp only [List.length_cons] at h1
                  omega
                · have h3 : (r.drop (pat.length - 1)).length ≤ r.length := by
                    have := List.length_drop (pat.length - 1) r
                    omega
                  simp only [List.length_cons] at h2
                  omega
              · congr 1
                apply ih
                · simp only [List.length_cons] at h1
                  omega
                · simp only [List.length_cons] at h2
                  omega

/-! Character membership facts about the scanners. -/

theorem catchAllF_sublist : ∀ (fuel : Nat) (l : List Char), List.Sublist (catchAllF fuel l) l := by
  intro fuel
  induction fuel with
  | zero => intro l; exact List.Sublist.refl l
  | succ f ih =>
      intro l
      cases l with
      | nil => exact List.Sublist.refl []
      | cons c r =>
          rw [catchAllF]
          split
          · refine List.Sublist.trans (ih _) ?_
            refine List.Sublist.trans (List.drop_sublist 1 _) ?_
            exact List.Sublist.trans (List.dropWhile_sublist _) (List.sublist_cons_self c r)
          · exact List.Sublist.cons₂ c (ih r)

theorem stripTagsF_sublist : ∀ (fuel : Nat) (l : List Char), List.Sublist (stripTagsF fuel l) l := by
  intro fuel
  induction fuel with
  | zero => intro l; exact List.Sublist.refl l
  | succ f ih =>
      intro l
      cases l with
      | nil => exact List.Sublist.refl []
      | cons c r =>
          rw [stripTagsF]
          split
          · refine List.Sublist.trans (ih _) ?_
            refine List.Sublist.trans (List.drop_sublist 1 _) ?_
            exact List.Sublist.trans (List.dropWhile_sublist _) (List.sublist_cons_self c r)
          · exact List.Sublist.cons₂ c (ih r)

theorem mem_collapseF : ∀ (fuel : Nat) (l : List Char) (c : Char),
    c ∈ collapseF fuel l → c = ' ' ∨ c ∈ l := by
  intro fuel
  induction fuel with
  | zero => intro l c hc; exact Or.inr hc
  | succ f ih =>
      intro l c hc
      cases l with
      | nil => rw [collapseF_nil] at hc; simp at hc
      | cons d r =>
          rw [collapseF] at hc
          revert hc
          split
          · intro hc
            rcases List.mem_cons.mp hc with rfl | hc2
            · exact Or.inl rfl
            · rcases ih _ c hc2 with h | h
              · exact Or.inl h
              · exact Or.inr (List.mem_cons_of_mem d ((List.dropWhile_sublist _).subset h))
          · intro hc
            rcases List.mem_cons.mp hc with rfl | hc2
            · exact Or.inr (List.mem_cons_self _ _)
            · rcases ih _ c hc2 with h | h
              · exact Or.inl h
              · exact Or.inr (List.mem_cons_of_mem d h)

theorem mem_replF (pat rep : List Char) : ∀ (fuel : Nat) (l : List Char) (c : Char),
    c ∈ replF pat rep fuel l → c ∈ rep ∨ c ∈ l := by
  intro fuel
  induction fuel with
  | zero => intro l c hc; exact Or.inr hc
  | succ f ih =>
      intro l c hc
      cases l with
      | nil => rw [replF_nil] at hc; simp at hc
      | cons d r =>
          rw [replF] at hc
          revert hc
          split
          · intro hc
            rcases List.mem_append.mp hc with h | h
            · exact Or.inl h
            · rcases ih _ c h with h2 | h2
              · exact Or.inl h2
              · exact Or.inr (List.mem_cons_of_mem d ((List.drop_sublist _ _).subset h2))
          · intro hc
            rcases List.mem_cons.mp hc with rfl | hc2
            · exact Or.inr (List.mem_cons_self _ _)
            · rcases ih _ c hc2 with h | h
              · exact Or.inl h
              · exact Or.inr (List.mem_cons_of_mem d h)

/-! Closure properties of the invariants. -/

theorem tagOK_sublist : ∀ {l' l : List Char}, List.Sublist l' l → tagOK l → tagOK l' := by
  intro l' l h
  induction h with
  | slnil => intro _; trivial
  | cons a _ ih =>
      intro hl
      exact ih hl.2
  | cons₂ a h ih =>
      intro hl
      refine ⟨?_, ih hl.2⟩
      intro hc hmem
      exact hl.1 hc (h.subset hmem)

theorem entOK_tail {c : Char} {r : List Char} (h : entOK (c :: r)) : entOK r := h.2

theorem entOK_dropWhile (p : Char → Bool) : ∀ l : List Char, entOK l → entOK (l.dropWhile p) := by
  intro l
  induction l with
  | nil => intro h; trivial
  | cons c r ih =>
      intro h
      rw [List.dropWhile_cons]
      split
      · exact ih h.2
      · exact h

theorem colOK_dropWhile (p : Char → Bool) : ∀ l : List Char, colOK l → colOK (l.dropWhile p) := by
  intro l
  induction l with
  | nil => intro h; trivial
  | cons c r ih =>
      intro h
      rw [List.dropWhile_cons]
      split
      · exact ih h.2
      · exact h

/-- entOK survives removal of trailing whitespace. -/
theorem entOK_append_ws : ∀ (a w : List Char), (∀ c ∈ w, isWS c = true) →
    entOK (a ++ w) → entOK a := by
  intro a
  induction a with
  | nil => intro w _ _; trivial
  | cons c a' ih =>
      intro w hw h
      refine ⟨?_, ih w hw h.2⟩
      intro hc
      rcases h.1 hc with h1 | h1
      · cases a' with
        | nil => exact Or.inr (by simp)
        | cons d a'' =>
            left
            simpa using h1
      · right
        intro hmem
        exact h1 (List.mem_append_left w hmem)

/-- colOK survives removal of trailing whitespace. -/
theorem colOK_append_ws : ∀ (a w : List Char), (∀ c ∈ w, isWS c = true) →
    colOK (a ++ w) → colOK a := by
  intro a
  induction a with
  | nil => intro w _ _; trivial
  | cons c a' ih =>
      intro w hw h
      refine ⟨?_, ih w hw h.2⟩
      intro hc
      obtain ⟨h1, h2⟩ := h.1 hc
      refine ⟨h1, ?_⟩
      cases a' with
      | nil => trivial
      | cons d a'' => simpa [headNb] using h2

/-! Each stage is the identity on inputs satisfying its invariant. -/

theorem headMatch_iff (pat : List Char) : ∀ l, headMatch pat l = true ↔ ∃ s, l = pat ++ s := by
  induction pat with
  | nil =>
      intro l
      simp [headMatch]
  | cons p ps ih =>
      intro l
      cases l with
      | nil =>
          simp [headMatch]
      | cons c r =>
          simp only [headMatch, Bool.and_eq_true, beq_iff_eq, List.cons_append, List.cons.injEq]
          constructor
          · rintro ⟨rfl, h⟩
            obtain ⟨s, rfl⟩ := (ih r).mp h
            exact ⟨s, rfl, rfl⟩
          · rintro ⟨s, rfl, hr⟩
            exact ⟨rfl, (ih r).mpr ⟨s, hr⟩⟩

theorem stripTagsF_id_of_tagOK : ∀ (fuel : Nat) (l : List Char),
    tagOK l → stripTagsF fuel l = l := by
  intro fuel
  induction fuel with
  | zero => intro l _; rfl
  | succ f ih =>
      intro l hl
      cases l with
      | nil => rfl
      | cons c r =>
          rw [stripTagsF, if_neg, ih r hl.2]
          rintro ⟨hc, hmem⟩
          exact hl.1 hc hmem

theorem catchAllF_id_of_entOK : ∀ (fuel : Nat) (l : List Char),
    entOK l → catchAllF fuel l = l := by
  intro fuel
  induction fuel with
  | zero => intro l _; rfl
  | succ f ih =>
      intro l hl
      cases l with
      | nil => rfl
      | cons c r =>
          rw [catchAllF, if_neg, ih r hl.2]
          rintro ⟨hc, hhead, hmem⟩
          rcases hl.1 hc with h | h
          · exact hhead h
          · exact h hmem

theorem collapseF_id_of_colOK : ∀ (fuel : Nat) (l : List Char),
    colOK l → collapseF fuel l = l := by
  intro fuel
  induction fuel with
  | zero => intro l _; rfl
  | succ f ih =>
      intro l hl
      cases l with
      | nil => rfl
      | cons c r =>
          rw [collapseF]
          split
          · rename_i hws
            obtain ⟨h1, h2⟩ := hl.1 hws
            have hr : r.dropWhile isWS = r := by
              cases r with
              | nil => rfl
              | cons d r2 =>
                  rw [List.dropWhile_cons, if_neg]
                  simp only [headNb] at h2
                  simp [h2]
            rw [hr, ih r hl.2, h1]
          · rw [ih r hl.2]

theorem replF_id_of_entOK (pat rep m : List Char) (hp : pat = '&' :: (m ++ [';']))
    (hm : m ≠ []) (hs : ';' ∉ m) : ∀ (fuel : Nat) (l : List Char),
    entOK l → replF pat rep fuel l = l := by
  intro fuel
  induction fuel with
  | zero => intro l _; rfl
  | succ f ih =>
      intro l hl
      cases l with
      | nil => rfl
      | cons c r =>
          rw [replF, if_neg, ih r hl.2]
          rintro ⟨hne, hmatch⟩
          obtain ⟨s, hsplit⟩ := (headMatch_iff pat (c :: r)).mp hmatch
          rw [hp, List.cons_append] at hsplit
          injection hsplit with h1 h2
          rcases hl.1 h1 with hc | hc
          · rw [h2] at hc
            cases m with
            | nil => exact hm rfl
            | cons d m' =>
                simp only [List.cons_append, List.head?_cons, Option.some.injEq] at hc
                exact hs (hc ▸ List.mem_cons_self d m')
          · rw [h2] at hc
            exact hc (by simp)

theorem map_toLower_id : ∀ l : List Char, lowOK l → l.map Char.toLower = l := by
  intro l
  induction l with
  | nil => intro _; rfl
  | cons c r ih =>
      intro h
      rw [List.map_cons, h c (List.mem_cons_self c r), ih (fun d hd => h d (List.mem_cons_of_mem c hd))]

/-! Each stage establishes its invariant. -/

theorem tagOK_stripTagsF : ∀ (fuel : Nat) (l : List Char),
    l.length ≤ fuel → tagOK (stripTagsF fuel l) := by
  intro fuel
  induction fuel with
  | zero =>
      intro l h
      have : l = [] := List.eq_nil_of_length_eq_zero (by omega)
      subst this
      trivial
  | succ f ih =>
      intro l h
      cases l with
      | nil => rw [stripTagsF_nil]; trivial
      | cons c r =>
          simp only [List.length_cons] at h
          rw [stripTagsF]
          split
          · apply ih
            have h3 : (r.dropWhile (fun d => d ≠ '>')).length ≤ r.length :=
              (List.dropWhile_sublist _).length_le
            have h4 := List.length_drop 1 (r.dropWhile (fun d => d ≠ '>'))
            omega
          · rename_i hneg
            refine ⟨?_, ih r (by omega)⟩
            intro hc hmem
            have : '>' ∈ r := (stripTagsF_sublist f r).subset hmem
            exact hneg ⟨hc, this⟩

theorem head?_catchAllF_semi (f : Nat) (r2 : List Char) :
    (catchAllF f (';' :: r2)).head? = some ';' := by
  cases f with
  | zero => rfl
  | succ g =>
      rw [catchAllF, if_neg]
      · rfl
      · rintro ⟨hc, _⟩
        exact absurd hc (by decide)

theorem entOK_catchAllF : ∀ (fuel : Nat) (l : List Char),
    l.length ≤ fuel → entOK (catchAllF fuel l) := by
  intro fuel
  induction fuel with
  | zero =>
      intro l h
      have : l = [] := List.eq_nil_of_length_eq_zero (by omega)
      subst this
      trivial
  | succ f ih =>
      intro l h
      cases l with
      | nil => rw [catchAllF_nil]; trivial
      | cons c r =>
          simp only [List.length_cons] at h
          rw [catchAllF]
          split
          · apply ih
            have h3 : (r.dropWhile (fun d => d ≠ ';')).length ≤ r.length :=
              (List.dropWhile_sublist _).length_le
            have h4 := List.length_drop 1 (r.dropWhile (fun d => d ≠ ';'))
            omega
          · rename_i hneg
            refine ⟨?_, ih r (by omega)⟩
            intro hc
            by_cases hsemi : ';' ∈ r
            · by_cases hhead : r.head? = some ';'
              · left
                cases r with
                | nil => simp at hhead
                | cons d r2 =>
                    simp only [List.head?_cons, Option.some.injEq] at hhead
                    subst hhead
                    exact head?_catchAllF_semi f r2
              · exact absurd ⟨hc, hhead, hsemi⟩ hneg
            · right
              intro hmem
              exact hsemi ((catchAllF_sublist f r).subset hmem)

theorem headNb_dropWhileWS : ∀ l : List Char, headNb (l.dropWhile isWS) := by
  intro l
  induction l with
  | nil => trivial
  | cons c r ih =>
      rw [List.dropWhile_cons]
      split
      · exact ih
      · rename_i hc
        simpa [headNb] using hc

theorem headNb_collapseF (f : Nat) (x : List Char) (h : headNb x) :
    headNb (collapseF f x) := by
  cases f with
  | zero => exact h
  | succ g =>
      cases x with
      | nil => rw [collapseF_nil]; trivial
      | cons d r =>
          rw [collapseF, if_neg]
          · exact h
          · simp only [headNb] at h
            simp [h]

theorem colOK_collapseF : ∀ (fuel : Nat) (l : List Char),
    l.length ≤ fuel → colOK (collapseF fuel l) := by
  intro fuel
  induction fuel with
  | zero =>
      intro l h
      have : l = [] := List.eq_nil_of_length_eq_zero (by omega)
      subst this
      trivial
  | succ f ih =>
      intro l h
      cases l with
      | nil => rw [collapseF_nil]; trivial
      | cons c r =>
          simp only [List.length_cons] at h
          rw [collapseF]
          split
          · refine ⟨fun _ => ⟨rfl, headNb_collapseF f _ (headNb_dropWhileWS r)⟩, ?_⟩
            apply ih
            have h3 : (r.dropWhile isWS).length ≤ r.length :=
              (List.dropWhile_sublist _).length_le
            omega
          · rename_i hneg
            refine ⟨fun hws => absurd hws hneg, ih r (by omega)⟩

theorem lowOK_map (l : List Char) : lowOK (l.map Char.toLower) := by
  intro c hc
  obtain ⟨d, _, rfl⟩ := List.mem_map.mp hc
  exact toLower_toLower d

/-! Each later stage preserves the earlier invariants. -/

theorem tagOK_append_left (a b : List Char) (ha : ∀ c ∈ a, c ≠ '<') (hb : tagOK b) :
    tagOK (a ++ b) := by
  induction a with
  | nil => exact hb
  | cons d a' ih =>
      refine ⟨?_, ih (fun c hc => ha c (List.mem_cons_of_mem d hc))⟩
      intro hd
      exact absurd hd (ha d (List.mem_cons_self d a'))

theorem tagOK_replF (pat rep : List Char)
    (hrep : ∀ c ∈ rep, c ≠ '<' ∧ c ≠ '>') :
    ∀ (fuel : Nat) (l : List Char), tagOK l → tagOK (replF pat rep fuel l) := by
  intro fuel
  induction fuel with
  | zero => intro l h; exact h
  | succ f ih =>
      intro l hl
      cases l with
      | nil => rw [replF_nil]; trivial
      | cons c r =>
          rw [replF]
          split
          · refine tagOK_append_left _ _ (fun d hd => (hrep d hd).1) ?_
            refine ih _ (tagOK_sublist (List.drop_sublist _ _) hl.2)
          · refine ⟨?_, ih r hl.2⟩
            intro hc hmem
            rcases mem_replF pat rep f r '>' hmem with h | h
            · exact (hrep _ h).2 rfl
            · exact hl.1 hc h

theorem tagOK_collapseF : ∀ (fuel : Nat) (l : List Char), tagOK l → tagOK (collapseF fuel l) := by
  intro fuel
  induction fuel with
  | zero => intro l h; exact h
  | succ f ih =>
      intro l hl
      cases l with
      | nil => rw [collapseF_nil]; trivial
      | cons c r =>
          rw [collapseF]
          split
          · refine ⟨fun hc => absurd hc (by decide), ?_⟩
            exact ih _ (tagOK_sublist (List.dropWhile_sublist _) hl.2)
          · refine ⟨?_, ih r hl.2⟩
            intro hc hmem
            rcases mem_collapseF f r '>' hmem with h | h
            · exact absurd h (by decide)
            · exact hl.1 hc h

theorem tagOK_map_toLower : ∀ l : List Char, tagOK l → tagOK (l.map Char.toLower) := by
  intro l
  induction l with
  | nil => intro _; trivial
  | cons c r ih =>
      intro hl
      rw [List.map_cons]
      refine ⟨?_, ih hl.2⟩
      intro hc hmem
      have hc2 : c = '<' := toLower_fix_rev c '<' (Or.inl (by decide)) hc
      obtain ⟨d, hd, hdl⟩ := List.mem_map.mp hmem
      have : d = '>' := toLower_fix_rev d '>' (Or.inl (by decide)) hdl
      exact hl.1 hc2 (this ▸ hd)

theorem trimList_sublist (l : List Char) : List.Sublist (trimList l) l := by
  obtain ⟨w, hw1, _⟩ := rtrim_decomp l
  have h1 : List.Sublist (ltrim (rtrim l)) (rtrim l) := List.dropWhile_sublist _
  have h2 : List.Sublist (rtrim l) l := by
    conv_rhs => rw [hw1]
    exact List.sublist_append_left _ _
  exact h1.trans h2

theorem tagOK_trimList (l : List Char) (h : tagOK l) : tagOK (trimList l) :=
  tagOK_sublist (trimList_sublist l) h

theorem head?_collapseF_semi (f : Nat) (r2 : List Char) :
    (collapseF f (';' :: r2)).head? = some ';' := by
  cases f with
  | zero => rfl
  | succ g =>
      rw [collapseF, if_neg]
      · rfl
      · decide

theorem entOK_collapseF : ∀ (fuel : Nat) (l : List Char), entOK l → entOK (collapseF fuel l) := by
  intro fuel
  induction fuel with
  | zero => intro l h; exact h
  | succ f ih =>
      intro l hl
      cases l with
      | nil => rw [collapseF_nil]; trivial
      | cons c r =>
          rw [collapseF]
          split
          · refine ⟨fun hc => absurd hc (by decide), ?_⟩
            exact ih _ (entOK_dropWhile isWS r hl.2)
          · refine ⟨?_, ih r hl.2⟩
            intro hc
            rcases hl.1 hc with h | h
            · left
              cases r with
              | nil => simp at h
              | cons d r2 =>
                  simp only [List.head?_cons, Option.some.injEq] at h
                  subst h
                  exact head?_collapseF_semi f r2
            · right
              intro hmem
              rcases mem_collapseF f r ';' hmem with h2 | h2
              · exact absurd h2 (by decide)
              · exact h h2

theorem entOK_map_toLower : ∀ l : List Char, entOK l → entOK (l.map Char.toLower) := by
  intro l
  induction l with
  | nil => intro _; trivial
  | cons c r ih =>
      intro hl
      rw [List.map_cons]
      refine ⟨?_, ih hl.2⟩
      intro hc
      have hc2 : c = '&' := toLower_fix_rev c '&' (Or.inl (by decide)) hc
      rcases hl.1 hc2 with h | h
      · left
        cases r with
        | nil => simp at h
        | cons d r2 =>
            simp only [List.head?_cons, Option.some.injEq] at h
            subst h
            rw [List.map_cons, List.head?_cons, toLower_eq_self ';' (by decide)]
      · right
        intro hmem
        obtain ⟨d, hd, hdl⟩ := List.mem_map.mp hmem
        have : d = ';' := toLower_fix_rev d ';' (Or.inl (by decide)) hdl
        exact h (this ▸ hd)

theorem entOK_trimList (l : List Char) (h : entOK l) : entOK (trimList l) := by
  obtain ⟨w, hw1, hw2⟩ := rtrim_decomp l
  have h1 : entOK (rtrim l) := entOK_append_ws (rtrim l) w hw2 (hw1 ▸ h)
  exact entOK_dropWhile isWS (rtrim l) h1

theorem colOK_map_toLower : ∀ l : List Char, colOK l → colOK (l.map Char.toLower) := by
  intro l
  induction l with
  | nil => intro _; trivial
  | cons c r ih =>
      intro hl
      rw [List.map_cons]
      refine ⟨?_, ih hl.2⟩
      intro hws
      rw [isWS_toLower] at hws
      obtain ⟨h1, h2⟩ := hl.1 hws
      subst h1
      refine ⟨toLower_eq_self ' ' (by decide), ?_⟩
      cases r with
      | nil => trivial
      | cons d r2 =>
          rw [List.map_cons]
          simp only [headNb] at h2 ⊢
          rw [isWS_toLower]
          exact h2

theorem colOK_trimList (l : List Char) (h : colOK l) : colOK (trimList l) := by
  obtain ⟨w, hw1, hw2⟩ := rtrim_decomp l
  have h1 : colOK (rtrim l) := colOK_append_ws (rtrim l) w hw2 (hw1 ▸ h)
  exact colOK_dropWhile isWS (rtrim l) h1

theorem lowOK_trimList (l : List Char) (h : lowOK l) : lowOK (trimList l) :=
  fun c hc => h c ((trimList_sublist l).subset hc)

theorem stripTags_def (l : List Char) : stripTags l = stripTagsF l.length l := rfl

theorem catchAll_def (l : List Char) : catchAll l = catchAllF l.length l := rfl

theorem collapse_def (l : List Char) : collapse l = collapseF l.length l := rfl

theorem repl_def (pat rep l : List Char) : repl pat rep l = replF pat rep l.length l := rfl

/-- The pipeline output satisfies all five invariants. -/
theorem normChars_invariants (l : List Char) :
    tagOK (normChars l) ∧ entOK (normChars l) ∧ colOK (normChars l) ∧ lowOK (normChars l) ∧
    ltrim (normChars l) = normChars l ∧ rtrim (normChars l) = normChars l := by
  obtain ⟨y0, hy0⟩ : ∃ y, stripTags l = y := ⟨_, rfl⟩
  obtain ⟨y1, hy1⟩ : ∃ y, replaceEntities y0 = y := ⟨_, rfl⟩
  obtain ⟨y2, hy2⟩ : ∃ y, catchAll y1 = y := ⟨_, rfl⟩
  obtain ⟨y3, hy3⟩ : ∃ y, collapse y2 = y := ⟨_, rfl⟩
  obtain ⟨y4, hy4⟩ : ∃ y, y3.map Char.toLower = y := ⟨_, rfl⟩
  have hn : normChars l = trimList y4 := by
    rw [show normChars l = trimList ((collapse (catchAll (replaceEntities
      (stripTags l)))).map Char.toLower) from rfl, hy0, hy1, hy2, hy3, hy4]
  have t0 : tagOK y0 := by
    rw [← hy0, stripTags_def]
    exact tagOK_stripTagsF _ _ le_rfl
  have t1 : tagOK y1 := by
    rw [← hy1]
    unfold replaceEntities
    simp only [repl_def]
    exact tagOK_replF _ _ (by decide) _ _ (tagOK_replF _ _ (by decide) _ _
      (tagOK_replF _ _ (by decide) _ _ (tagOK_replF _ _ (by decide) _ _
      (tagOK_replF _ _ (by decide) _ _ (tagOK_replF _ _ (by decide) _ _
      (tagOK_replF _ _ (by decide) _ _ t0))))))
  have t2 : tagOK y2 := by
    rw [← hy2, catchAll_def]
    exact tagOK_sublist (catchAllF_sublist _ _) t1
  have t3 : tagOK y3 := by
    rw [← hy3, collapse_def]
    exact tagOK_collapseF _ _ t2
  have t4 : tagOK y4 := by
    rw [← hy4]
    exact tagOK_map_toLower _ t3
  have e2 : entOK y2 := by
    rw [← hy2, catchAll_def]
    exact entOK_catchAllF _ _ le_rfl
  have e3 : entOK y3 := by
    rw [← hy3, collapse_def]
    exact entOK_collapseF _ _ e2
  have e4 : entOK y4 := by
    rw [← hy4]
    exact entOK_map_toLower _ e3
  have c3 : colOK y3 := by
    rw [← hy3, collapse_def]
    exact colOK_collapseF _ _ le_rfl
  have c4 : colOK y4 := by
    rw [← hy4]
    exact colOK_map_toLower _ c3
  have l4 : lowOK y4 := by
    rw [← hy4]
    exact lowOK_map _
  rw [hn]
  exact ⟨tagOK_trimList _ t4, entOK_trimList _ e4, colOK_trimList _ c4, lowOK_trimList _ l4,
    ltrim_ltrim _, rtrim_ltrim _ (rtrim_rtrim _)⟩

set_option linter.constructorNameAsVariable false in
/-- The pipeline is the identity on its own output. -/
theorem normChars_idem (l : List Char) : normChars (normChars l) = normChars l := by
  obtain ⟨tx, ex, cx, lx, hfl, hfr⟩ := normChars_invariants l
  obtain ⟨x, hx⟩ : ∃ y, normChars l = y := ⟨_, rfl⟩
  rw [hx] at tx ex cx lx hfl hfr ⊢
  rw [show normChars x = trimList ((collapse (catchAll (replaceEntities
    (stripTags x)))).map Char.toLower) from rfl]
  rw [stripTags_def, stripTagsF_id_of_tagOK _ _ tx]
  have hre : replaceEntities x = x := by
    unfold replaceEntities
    simp only [repl_def]
    rw [replF_id_of_entOK entNbsp [' '] ['n', 'b', 's', 'p'] rfl (by decide) (by decide) _ _ ex]
    rw [replF_id_of_entOK entAmp ['&'] ['a', 'm', 'p'] rfl (by decide) (by decide) _ _ ex]
    rw [replF_id_of_entOK entQuot ['"'] ['q', 'u', 'o', 't'] rfl (by decide) (by decide) _ _ ex]
    rw [replF_id_of_entOK ent8217 ['\''] ['#', '8', '2', '1', '7'] rfl (by decide) (by decide)
      _ _ ex]
    rw [replF_id_of_entOK ent8216 ['\''] ['#', '8', '2', '1', '6'] rfl (by decide) (by decide)
      _ _ ex]
    rw [replF_id_of_entOK ent39 ['\''] ['#', '3', '9'] rfl (by decide) (by decide) _ _ ex]
    rw [replF_id_of_entOK ent038 ['&'] ['#', '0', '3', '8'] rfl (by decide) (by decide) _ _ ex]
  rw [hre]
  rw [catchAll_def, catchAllF_id_of_entOK _ _ ex]
  rw [collapse_def, collapseF_id_of_colOK _ _ cx]
  rw [map_toLower_id _ lx]
  show trimList x = x
  unfold trimList
  rw [hfr, hfl]

theorem normalizeTitle_def (s : String) :
    normalizeTitle s = String.mk (normChars s.data) := rfl

theorem mk_data (l : List Char) : (String.mk l).data = l := rfl

/-- C4: normalizeTitle is idempotent, and normalization identifies a
title with markup and mixed case with its lower-cased whitespace-
collapsed form. -/
theorem c4_normalize_idempotent :
    (∀ s : String, normalizeTitle (normalizeTitle s) = normalizeTitle s) ∧
    normalizeTitle "Hello <b>World</b>" = normalizeTitle "hello   world" := by
  refine ⟨?_, by decide⟩
  intro s
  rw [normalizeTitle_def s, normalizeTitle_def (String.mk (normChars s.data)), mk_data,
    normChars_idem]

/-! ## Whitespace padding is invisible to the normalization pipeline

Leading and trailing whitespace survives tag stripping and entity
replacement unchanged, is collapsed to at most one space, and is then
removed by the final trim, so normalizeTitle is insensitive to
trimming its argument. -/

theorem dropWhile_ws_append : ∀ (w u : List Char), (∀ c ∈ w, isWS c = true) →
    (w ++ u).dropWhile isWS = u.dropWhile isWS := by
  intro w
  induction w with
  | nil => intro u _; rfl
  | cons c r ih =>
      intro u hw
      have hc : isWS c = true := hw c (List.mem_cons_self c r)
      rw [List.cons_append, List.dropWhile_cons, if_pos hc]
      exact ih u (fun d hd => hw d (List.mem_cons_of_mem c hd))

theorem dropWhile_ws_of_allWS (w : List Char) (hw : ∀ c ∈ w, isWS c = true) :
    w.dropWhile isWS = [] := by
  have := dropWhile_ws_append w [] hw
  rw [List.append_nil] at this
  rw [this]
  rfl

theorem dropWhile_append_ne (p : Char → Bool) : ∀ (a b : List Char), (∃ c ∈ a, p c = false) →
    (a ++ b).dropWhile p = a.dropWhile p ++ b := by
  intro a
  induction a with
  | nil =>
      intro b h
      obtain ⟨c, hc, _⟩ := h
      exact absurd hc (List.not_mem_nil c)
  | cons c r ih =>
      intro b h
      cases hpc : p c with
      | true =>
          rw [List.cons_append, List.dropWhile_cons, if_pos hpc, List.dropWhile_cons, if_pos hpc]
          refine ih b ?_
          obtain ⟨d, hd, hdp⟩ := h
          rcases List.mem_cons.mp hd with rfl | hd2
          · rw [hpc] at hdp; exact Bool.noConfusion hdp
          · exact ⟨d, hd2, hdp⟩
      | false =>
          have hn : ¬ p c = true := by rw [hpc]; exact Bool.noConfusion
          rw [List.cons_append, List.dropWhile_cons, if_neg hn, List.dropWhile_cons, if_neg hn,
            List.cons_append]

theorem dropWhile_ne_nil (p : Char → Bool) : ∀ (a : List Char), (∃ c ∈ a, p c = false) →
    a.dropWhile p ≠ [] := by
  intro a
  induction a with
  | nil =>
      intro h
      obtain ⟨c, hc, _⟩ := h
      exact absurd hc (List.not_mem_nil c)
  | cons c r ih =>
      intro h
      cases hpc : p c with
      | true =>
          rw [List.dropWhile_cons, if_pos hpc]
          refine ih ?_
          obtain ⟨d, hd, hdp⟩ := h
          rcases List.mem_cons.mp hd with rfl | hd2
          · rw [hpc] at hdp; exact Bool.noConfusion hdp
          · exact ⟨d, hd2, hdp⟩
      | false =>
          have hn : ¬ p c = true := by rw [hpc]; exact Bool.noConfusion
          rw [List.dropWhile_cons, if_neg hn]
          exact List.cons_ne_nil c _

theorem drop_one_append (a b : List Char) (ha : a ≠ []) :
    (a ++ b).drop 1 = a.drop 1 ++ b := by
  cases a with
  | nil => exact absurd rfl ha
  | cons c r => rfl

theorem dropTo_append (p : Char → Bool) (a b : List Char) (hx : ∃ c ∈ a, p c = false) :
    ((a ++ b).dropWhile p).drop 1 = (a.dropWhile p).drop 1 ++ b := by
  rw [dropWhile_append_ne p a b hx, drop_one_append _ _ (dropWhile_ne_nil p a hx)]

theorem drop_append_le : ∀ (n : Nat) (a b : List Char), n ≤ a.length →
    (a ++ b).drop n = a.drop n ++ b := by
  intro n
  induction n with
  | zero => intro a b _; rfl
  | succ m ih =>
      intro a b h
      cases a with
      | nil => simp at h
      | cons c r =>
          rw [List.cons_append, List.drop_succ_cons, List.drop_succ_cons]
          exact ih r b (by simp only [List.length_cons] at h; omega)

theorem headMatch_le_length : ∀ (pat t : List Char), headMatch pat t = true →
    pat.length ≤ t.length := by
  intro pat
  induction pat with
  | nil => intro t _; exact Nat.zero_le _
  | cons p ps ih =>
      intro t h
      cases t with
      | nil => exact Bool.noConfusion h
      | cons c cs =>
          rw [headMatch, Bool.and_eq_true] at h
          simp only [List.length_cons]
          exact Nat.succ_le_succ (ih cs h.2)

theorem headMatch_append_ws (w : List Char) (hw : ∀ c ∈ w, isWS c = true) :
    ∀ (pat : List Char), (∀ c ∈ pat, isWS c = false) →
    ∀ (t : List Char), headMatch pat (t ++ w) = headMatch pat t := by
  intro pat
  induction pat with
  | nil => intro _ t; rfl
  | cons p ps ih =>
      intro hp t
      cases t with
      | nil =>
          rw [List.nil_append]
          cases w with
          | nil => rfl
          | cons d w' =>
              have hpd : (p == d) = false := by
                refine beq_eq_false_iff_ne.mpr ?_
                intro e
                have h1 : isWS p = false := hp p (List.mem_cons_self p ps)
                rw [e, hw d (List.mem_cons_self d w')] at h1
                exact Bool.noConfusion h1
              show (p == d && headMatch ps w') = headMatch (p :: ps) []
              rw [hpd, Bool.false_and]
              rfl
      | cons c cs =>
          rw [List.cons_append, headMatch, headMatch,
            ih (fun d hd => hp d (List.mem_cons_of_mem p hd)) cs]

theorem stripTagsF_allWS : ∀ (fuel : Nat) (w : List Char), (∀ c ∈ w, isWS c = true) →
    stripTagsF fuel w = w := by
  intro fuel
  induction fuel with
  | zero => intro w _; rfl
  | succ f ih =>
      intro w hw
      cases w with
      | nil => rfl
      | cons c r =>
          rw [stripTagsF, if_neg]
          · rw [ih r (fun d hd => hw d (List.mem_cons_of_mem c hd))]
          · intro h
            exact (ws_ne_trigger c (hw c (List.mem_cons_self c r))).1 h.1

theorem catchAllF_allWS : ∀ (fuel : Nat) (w : List Char), (∀ c ∈ w, isWS c = true) →
    catchAllF fuel w = w := by
  intro fuel
  induction fuel with
  | zero => intro w _; rfl
  | succ f ih =>
      intro w hw
      cases w with
      | nil => rfl
      | cons c r =>
          rw [catchAllF, if_neg]
          · rw [ih r (fun d hd => hw d (List.mem_cons_of_mem c hd))]
          · intro h
            exact (ws_ne_trigger c (hw c (List.mem_cons_self c r))).2.2.1 h.1

theorem replF_allWS (pat rep : List Char) (hp : ∀ c ∈ pat, isWS c = false) :
    ∀ (fuel : Nat) (w : List Char), (∀ c ∈ w, isWS c = true) →
    replF pat rep fuel w = w := by
  intro fuel
  induction fuel with
  | zero => intro w _; rfl
  | succ f ih =>
      intro w hw
      cases w with
      | nil => rfl
      | cons c r =>
          rw [replF, if_neg]
          · rw [ih r (fun d hd => hw d (List.mem_cons_of_mem c hd))]
          · rintro ⟨hne, hm⟩
            cases pat with
            | nil => exact hne rfl
            | cons p ps =>
                rw [headMatch, Bool.and_eq_true, beq_iff_eq] at hm
                have h1 : isWS p = false := hp p (List.mem_cons_self p ps)
                rw [hm.1, hw c (List.mem_cons_self c r)] at h1
                exact Bool.noConfusion h1

theorem stripTags_cons_ws (c : Char) (l : List Char) (hc : isWS c = true) :
    stripTags (c :: l) = c :: stripTags l := by
  rw [stripTags_def, stripTags_def, List.length_cons, stripTagsF, if_neg]
  intro h
  exact (ws_ne_trigger c hc).1 h.1

theorem catchAll_cons_ws (c : Char) (l : List Char) (hc : isWS c = true) :
    catchAll (c :: l) = c :: catchAll l := by
  rw [catchAll_def, catchAll_def, List.length_cons, catchAllF, if_neg]
  intro h
  exact (ws_ne_trigger c hc).2.2.1 h.1

theorem repl_cons_ws (pat rep : List Char) (hp : ∀ c ∈ pat, isWS c = false)
    (c : Char) (l : List Char) (hc : isWS c = true) :
    repl pat rep (c :: l) = c :: repl pat rep l := by
  rw [repl_def, repl_def, List.length_cons, replF, if_neg]
  rintro ⟨hne, hm⟩
  cases pat with
  | nil => exact hne rfl
  | cons p ps =>
      rw [headMatch, Bool.and_eq_true, beq_iff_eq] at hm
      have h1 : isWS p = false := hp p (List.mem_cons_self p ps)
      rw [hm.1, hc] at h1
      exact Bool.noConfusion h1

theorem collapse_cons_ws (c : Char) (l : List Char) (hc : isWS c = true) :
    collapse (c :: l) = ' ' :: collapse (l.dropWhile isWS) := by
  rw [collapse_def, collapse_def, List.length_cons, collapseF, if_pos hc]
  congr 1
  exact collapseF_irrel l.length _ _ (List.Sublist.length_le (List.dropWhile_sublist _)) le_rfl

theorem replaceEntities_cons_ws (c : Char) (l : List Char) (hc : isWS c = true) :
    replaceEntities (c :: l) = c :: replaceEntities l := by
  unfold replaceEntities
  rw [repl_cons_ws entNbsp [' '] (by decide) c l hc]
  rw [repl_cons_ws entAmp ['&'] (by decide) c _ hc]
  rw [repl_cons_ws entQuot ['"'] (by decide) c _ hc]
  rw [repl_cons_ws ent8217 ['\''] (by decide) c _ hc]
  rw [repl_cons_ws ent8216 ['\''] (by decide) c _ hc]
  rw [repl_cons_ws ent39 ['\''] (by decide) c _ hc]
  rw [repl_cons_ws ent038 ['&'] (by decide) c _ hc]

theorem trim_cons_ws (c : Char) (v : List Char) (hc : isWS c = true) :
    trimList (c :: v) = trimList v := by
  unfold trimList
  rw [rtrim_cons]
  by_cases h : rtrim v = []
  · rw [if_pos ⟨h, hc⟩, h]
  · rw [if_neg (fun hh => h hh.1)]
    unfold ltrim
    rw [List.dropWhile_cons, if_pos hc]

theorem trim_collapse_dropWhile (l : List Char) :
    trimList ((collapse (l.dropWhile isWS)).map Char.toLower) =
    trimList ((collapse l).map Char.toLower) := by
  cases l with
  | nil => rfl
  | cons d l' =>
      cases hd : isWS d with
      | false =>
          rw [List.dropWhile_cons, if_neg (by rw [hd]; exact Bool.noConfusion)]
      | true =>
          rw [List.dropWhile_cons, if_pos hd, collapse_cons_ws d l' hd, List.map_cons]
          have hsp : Char.toLower ' ' = ' ' := by decide
          rw [hsp, trim_cons_ws ' ' _ (by decide)]

theorem normChars_cons_ws (c : Char) (l : List Char) (hc : isWS c = true) :
    normChars (c :: l) = normChars l := by
  unfold normChars
  rw [stripTags_cons_ws c l hc]
  rw [replaceEntities_cons_ws c _ hc]
  rw [catchAll_cons_ws c _ hc]
  rw [collapse_cons_ws c _ hc, List.map_cons]
  have hsp : Char.toLower ' ' = ' ' := by decide
  rw [hsp, trim_cons_ws ' ' _ (by decide)]
  exact trim_collapse_dropWhile _

theorem normChars_ws_front : ∀ (w : List Char), (∀ c ∈ w, isWS c = true) → ∀ (l : List Char),
    normChars (w ++ l) = normChars l := by
  intro w
  induction w with
  | nil => intro _ l; rfl
  | cons c r ih =>
      intro hw l
      rw [List.cons_append, normChars_cons_ws c _ (hw c (List.mem_cons_self c r))]
      exact ih (fun d hd => hw d (List.mem_cons_of_mem c hd)) l

theorem rtrim_allWS_nil : ∀ (w : List Char), (∀ c ∈ w, isWS c = true) → rtrim w = [] := by
  intro w
  induction w with
  | nil => intro _; rfl
  | cons c r ih =>
      intro hw
      rw [rtrim_cons,
        if_pos ⟨ih (fun d hd => hw d (List.mem_cons_of_mem c hd)), hw c (List.mem_cons_self c r)⟩]

theorem rtrim_append_ws : ∀ (x w : List Char), (∀ c ∈ w, isWS c = true) →
    rtrim (x ++ w) = rtrim x := by
  intro x
  induction x with
  | nil =>
      intro w hw
      rw [List.nil_append]
      exact rtrim_allWS_nil w hw
  | cons c r ih =>
      intro w hw
      rw [List.cons_append, rtrim_cons, rtrim_cons, ih w hw]

theorem trimList_append_ws (x w : List Char) (hw : ∀ c ∈ w, isWS c = true) :
    trimList (x ++ w) = trimList x := by
  unfold trimList
  rw [rtrim_append_ws x w hw]

theorem stripTagsF_append_ws : ∀ (fuel : Nat) (u w : List Char),
    (∀ c ∈ w, isWS c = true) → (u ++ w).length ≤ fuel →
    stripTagsF fuel (u ++ w) = stripTagsF u.length u ++ w := by
  intro fuel
  induction fuel with
  | zero =>
      intro u w hw h
      rw [List.length_append] at h
      have hu : u = [] := List.eq_nil_of_length_eq_zero (by omega)
      have hwn : w = [] := List.eq_nil_of_length_eq_zero (by omega)
      subst hu; subst hwn
      rfl
  | succ f ih =>
      intro u w hw h
      cases u with
      | nil =>
          have h0 : stripTagsF ([] : List Char).length ([] : List Char) ++ w = w := rfl
          rw [h0, List.nil_append]
          exact stripTagsF_allWS (f + 1) w hw
      | cons c u' =>
          have hgtw : ('>') ∉ w := fun hm => absurd (hw '>' hm) (by decide)
          have hlen : u'.length + w.length + 1 ≤ f + 1 := by
            rw [List.cons_append, List.length_cons, List.length_append] at h
            omega
          rw [List.cons_append, List.length_cons, stripTagsF, stripTagsF]
          by_cases hcond : c = '<' ∧ '>' ∈ u'
          · rw [if_pos ⟨hcond.1, List.mem_append_left w hcond.2⟩, if_pos hcond]
            rw [dropTo_append _ u' w ⟨'>', hcond.2, by decide⟩]
            have hXle : ((u'.dropWhile (fun d => decide (d ≠ '>'))).drop 1).length ≤ u'.length := by
              have h1 := List.Sublist.length_le
                (List.dropWhile_sublist (fun d => decide (d ≠ '>')) (l := u'))
              have h2 := List.length_drop 1 (u'.dropWhile (fun d => decide (d ≠ '>')))
              omega
            rw [ih _ w hw (by rw [List.length_append]; omega)]
            rw [stripTagsF_irrel u'.length _ ((u'.dropWhile (fun d => decide (d ≠ '>'))).drop 1).length
              hXle le_rfl]
          · have hcond2 : ¬(c = '<' ∧ '>' ∈ u' ++ w) := by
              rintro ⟨h1, h2⟩
              rcases List.mem_append.mp h2 with h3 | h3
              · exact hcond ⟨h1, h3⟩
              · exact hgtw h3
            rw [if_neg hcond2, if_neg hcond, List.cons_append]
            congr 1
            exact ih u' w hw (by rw [List.length_append]; omega)

theorem stripTags_append_ws (u w : List Char) (hw : ∀ c ∈ w, isWS c = true) :
    stripTags (u ++ w) = stripTags u ++ w := by
  rw [stripTags_def, stripTags_def]
  exact stripTagsF_append_ws (u ++ w).length u w hw le_rfl

theorem catchAllF_append_ws : ∀ (fuel : Nat) (u w : List Char),
    (∀ c ∈ w, isWS c = true) → (u ++ w).length ≤ fuel →
    catchAllF fuel (u ++ w) = catchAllF u.length u ++ w := by
  intro fuel
  induction fuel with
  | zero =>
      intro u w hw h
      rw [List.length_append] at h
      have hu : u = [] := List.eq_nil_of_length_eq_zero (by omega)
      have hwn : w = [] := List.eq_nil_of_length_eq_zero (by omega)
      subst hu; subst hwn
      rfl
  | succ f ih =>
      intro u w hw h
      cases u with
      | nil =>
          have h0 : catchAllF ([] : List Char).length ([] : List Char) ++ w = w := rfl
          rw [h0, List.nil_append]
          exact catchAllF_allWS (f + 1) w hw
      | cons c u' =>
          have hsw : (';') ∉ w := fun hm => absurd (hw ';' hm) (by decide)
          have hlen : u'.length + w.length + 1 ≤ f + 1 := by
            rw [List.cons_append, List.length_cons, List.length_append] at h
            omega
          rw [List.cons_append, List.length_cons, catchAllF, catchAllF]
          by_cases hsemi : (';') ∈ u'
          · have hne : u' ≠ [] := by
              intro e
              rw [e] at hsemi
              exact List.not_mem_nil ';' hsemi
            have hheads : (u' ++ w).head? = u'.head? := by
              cases u' with
              | nil => exact absurd rfl hne
              | cons d t => rfl
            by_cases hcond : c = '&' ∧ u'.head? ≠ some ';'
            · rw [if_pos ⟨hcond.1, by rw [hheads]; exact hcond.2,
                List.mem_append_left w hsemi⟩, if_pos ⟨hcond.1, hcond.2, hsemi⟩]
              rw [dropTo_append _ u' w ⟨';', hsemi, by decide⟩]
              have hXle : ((u'.dropWhile (fun d => decide (d ≠ ';'))).drop 1).length
                  ≤ u'.length := by
                have h1 := List.Sublist.length_le
                  (List.dropWhile_sublist (fun d => decide (d ≠ ';')) (l := u'))
                have h2 := List.length_drop 1 (u'.dropWhile (fun d => decide (d ≠ ';')))
                omega
              rw [ih _ w hw (by rw [List.length_append]; omega)]
              rw [catchAllF_irrel u'.length _
                ((u'.dropWhile (fun d => decide (d ≠ ';'))).drop 1).length hXle le_rfl]
            · have hcond2 : ¬(c = '&' ∧ (u' ++ w).head? ≠ some ';' ∧ (';') ∈ u' ++ w) := by
                rintro ⟨h1, h2, _⟩
                rw [hheads] at h2
                exact hcond ⟨h1, h2⟩
              have hcond3 : ¬(c = '&' ∧ u'.head? ≠ some ';' ∧ (';') ∈ u') := by
                rintro ⟨h1, h2, _⟩
                exact hcond ⟨h1, h2⟩
              rw [if_neg hcond2, if_neg hcond3, List.cons_append]
              congr 1
              exact ih u' w hw (by rw [List.length_append]; omega)
          · have hcond2 : ¬(c = '&' ∧ (u' ++ w).head? ≠ some ';' ∧ (';') ∈ u' ++ w) := by
              rintro ⟨_, _, h3⟩
              rcases List.mem_append.mp h3 with h4 | h4
              · exact hsemi h4
              · exact hsw h4
            have hcond3 : ¬(c = '&' ∧ u'.head? ≠ some ';' ∧ (';') ∈ u') := by
              rintro ⟨_, _, h3⟩
              exact hsemi h3
            rw [if_neg hcond2, if_neg hcond3, List.cons_append]
            congr 1
            exact ih u' w hw (by rw [List.length_append]; omega)

theorem catchAll_append_ws (u w : List Char) (hw : ∀ c ∈ w, isWS c = true) :
    catchAll (u ++ w) = catchAll u ++ w := by
  rw [catchAll_def, catchAll_def]
  exact catchAllF_append_ws (u ++ w).length u w hw le_rfl

theorem replF_append_ws (pat rep : List Char) (hp : ∀ c ∈ pat, isWS c = false) :
    ∀ (fuel : Nat) (u w : List Char), (∀ c ∈ w, isWS c = true) → (u ++ w).length ≤ fuel →
    replF pat rep fuel (u ++ w) = replF pat rep u.length u ++ w := by
  intro fuel
  induction fuel with
  | zero =>
      intro u w hw h
      rw [List.length_append] at h
      have hu : u = [] := List.eq_nil_of_length_eq_zero (by omega)
      have hwn : w = [] := List.eq_nil_of_length_eq_zero (by omega)
      subst hu; subst hwn
      rfl
  | succ f ih =>
      intro u w hw h
      cases u with
      | nil =>
          have h0 : replF pat rep ([] : List Char).length ([] : List Char) ++ w = w := rfl
          rw [h0, List.nil_append]
          exact replF_allWS pat rep hp (f + 1) w hw
      | cons c u' =>
          have hlen : u'.length + w.length + 1 ≤ f + 1 := by
            rw [List.cons_append, List.length_cons, List.length_append] at h
            omega
          have hm : headMatch pat (c :: (u' ++ w)) = headMatch pat (c :: u') := by
            have := headMatch_append_ws w hw pat hp (c :: u')
            rw [List.cons_append] at this
            exact this
          rw [List.cons_append, List.length_cons, replF, replF]
          by_cases hcond : pat ≠ [] ∧ headMatch pat (c :: u') = true
          · rw [if_pos ⟨hcond.1, by rw [hm]; exact hcond.2⟩, if_pos hcond]
            have hple : pat.length ≤ u'.length + 1 := by
              have := headMatch_le_length pat (c :: u') hcond.2
              rw [List.length_cons] at this
              exact this
            rw [drop_append_le (pat.length - 1) u' w (by omega)]
            have hXle : (u'.drop (pat.length - 1)).length ≤ u'.length := by
              rw [List.length_drop]
              omega
            rw [ih _ w hw (by rw [List.length_append, List.length_drop]; omega)]
            rw [replF_irrel pat rep u'.length _ (u'.drop (pat.length - 1)).length hXle le_rfl]
            rw [List.append_assoc]
          · rw [if_neg (fun hh => hcond ⟨hh.1, by rw [← hm]; exact hh.2⟩), if_neg hcond,
              List.cons_append]
            congr 1
            exact ih u' w hw (by rw [List.length_append]; omega)

theorem repl_append_ws (pat rep : List Char) (hp : ∀ c ∈ pat, isWS c = false)
    (u w : List Char) (hw : ∀ c ∈ w, isWS c = true) :
    repl pat rep (u ++ w) = repl pat rep u ++ w := by
  rw [repl_def, repl_def]
  exact replF_append_ws pat rep hp (u ++ w).length u w hw le_rfl

theorem replaceEntities_append_ws (u w : List Char) (hw : ∀ c ∈ w, isWS c = true) :
    replaceEntities (u ++ w) = replaceEntities u ++ w := by
  unfold replaceEntities
  rw [repl_append_ws entNbsp [' '] (by decide) u w hw]
  rw [repl_append_ws entAmp ['&'] (by decide) _ w hw]
  rw [repl_append_ws entQuot ['"'] (by decide) _ w hw]
  rw [repl_append_ws ent8217 ['\''] (by decide) _ w hw]
  rw [repl_append_ws ent8216 ['\''] (by decide) _ w hw]
  rw [repl_append_ws ent39 ['\''] (by decide) _ w hw]
  rw [repl_append_ws ent038 ['&'] (by decide) _ w hw]

/-- Appending trailing whitespace to the input of the whitespace
collapse either leaves the output unchanged (when the input already
ends in whitespace) or appends a single space. -/
theorem collapseF_append_ws : ∀ (fuel : Nat) (u w : List Char),
    (∀ c ∈ w, isWS c = true) → (u ++ w).length ≤ fuel →
    collapseF fuel (u ++ w) = collapseF u.length u ∨
    collapseF fuel (u ++ w) = collapseF u.length u ++ [' '] := by
  intro fuel
  induction fuel with
  | zero =>
      intro u w hw h
      rw [List.length_append] at h
      have hu : u = [] := List.eq_nil_of_length_eq_zero (by omega)
      have hwn : w = [] := List.eq_nil_of_length_eq_zero (by omega)
      subst hu; subst hwn
      exact Or.inl rfl
  | succ f ih =>
      intro u w hw h
      cases u with
      | nil =>
          rw [List.nil_append]
          cases w with
          | nil => exact Or.inl rfl
          | cons d w' =>
              right
              rw [collapseF, if_pos (hw d (List.mem_cons_self d w'))]
              rw [dropWhile_ws_of_allWS w' (fun c hc => hw c (List.mem_cons_of_mem d hc))]
              rw [collapseF_nil f]
              rfl
      | cons c u' =>
          have hlen : u'.length + w.length + 1 ≤ f + 1 := by
            rw [List.cons_append, List.length_cons, List.length_append] at h
            omega
          rw [List.cons_append, List.length_cons, collapseF, collapseF]
          by_cases hc : isWS c = true
          · rw [if_pos hc, if_pos hc]
            by_cases hall : ∀ d ∈ u', isWS d = true
            · left
              have h1 : (u' ++ w).dropWhile isWS = [] :=
                dropWhile_ws_of_allWS (u' ++ w) (fun d hd => by
                  rcases List.mem_append.mp hd with h2 | h2
                  · exact hall d h2
                  · exact hw d h2)
              rw [h1, dropWhile_ws_of_allWS u' hall, collapseF_nil, collapseF_nil]
            · have hex : ∃ d ∈ u', isWS d = false := by
                push_neg at hall
                obtain ⟨d, hd, hdt⟩ := hall
                refine ⟨d, hd, ?_⟩
                cases hdd : isWS d with
                | false => rfl
                | true => exact absurd hdd hdt
              rw [dropWhile_append_ne isWS u' w hex]
              have hXle : (u'.dropWhile isWS).length ≤ u'.length :=
                List.Sublist.length_le (List.dropWhile_sublist isWS)
              have hirr : collapseF u'.length (u'.dropWhile isWS) =
                  collapseF (u'.dropWhile isWS).length (u'.dropWhile isWS) :=
                collapseF_irrel u'.length _ _ hXle le_rfl
              rcases ih (u'.dropWhile isWS) w hw
                  (by rw [List.length_append]; omega) with h2 | h2
              · left
                rw [h2, hirr]
              · right
                rw [h2, hirr, List.cons_append]
          · rw [if_neg hc, if_neg hc]
            rcases ih u' w hw (by rw [List.length_append]; omega) with h2 | h2
            · left
              rw [h2]
            · right
              rw [h2, List.cons_append]

theorem collapse_append_ws (u w : List Char) (hw : ∀ c ∈ w, isWS c = true) :
    collapse (u ++ w) = collapse u ∨ collapse (u ++ w) = collapse u ++ [' '] := by
  rw [collapse_def, collapse_def]
  exact collapseF_append_ws (u ++ w).length u w hw le_rfl

theorem normChars_append_ws (u w : List Char) (hw : ∀ c ∈ w, isWS c = true) :
    normChars (u ++ w) = normChars u := by
  unfold normChars
  rw [stripTags_append_ws u w hw]
  rw [replaceEntities_append_ws _ w hw]
  rw [catchAll_append_ws _ w hw]
  rcases collapse_append_ws (catchAll (replaceEntities (stripTags u))) w hw with hco | hco
  · rw [hco]
  · have hsp : ([' '] : List Char).map Char.toLower = [' '] := by decide
    rw [hco, List.map_append, hsp]
    exact trimList_append_ws _ [' '] (by decide)

theorem ltrim_decomp (l : List Char) :
    l = l.takeWhile isWS ++ ltrim l ∧ ∀ c ∈ l.takeWhile isWS, isWS c = true := by
  constructor
  · unfold ltrim
    exact (List.takeWhile_append_dropWhile (p := isWS) (l := l)).symm
  · intro c hc
    exact List.mem_takeWhile_imp hc

/-- Trimming first does not change the normalization pipeline's
output. -/
theorem normChars_trimList (l : List Char) : normChars (trimList l) = normChars l := by
  obtain ⟨w2, hw2a, hw2b⟩ := rtrim_decomp l
  have h1 : normChars l = normChars (rtrim l) := by
    conv_lhs => rw [hw2a]
    exact normChars_append_ws (rtrim l) w2 hw2b
  obtain ⟨hsplit, hws⟩ := ltrim_decomp (rtrim l)
  have h2 : normChars (rtrim l) = normChars (ltrim (rtrim l)) := by
    conv_lhs => rw [hsplit]
    exact normChars_ws_front _ hws _
  rw [show trimList l = ltrim (rtrim l) from rfl, ← h2, ← h1]

theorem jsTrim_def (s : String) : jsTrim s = String.mk (trimList s.data) := rfl

/-- normalizeTitle already trims internally, so trimming its argument
first changes nothing. -/
theorem normalizeTitle_jsTrim (s : String) :
    normalizeTitle (jsTrim s) = normalizeTitle s := by
  rw [normalizeTitle_def, normalizeTitle_def, jsTrim_def, mk_data, normChars_trimList]

/-! ## C1: normalized-title duplicates are rejected -/

theorem scannedPosts_resolveRow (env : Env) (st : Store) (row : Row) :
    scannedPosts (resolveRow env st row).2.1 = scannedPosts st := by
  unfold scannedPosts
  rw [(resolveRow_store env st row).1]

/-- C1 (amended): a row that passes required-field validation (title
and content non-blank after trimming) and whose normalized title
equals the normalized title of some post in the scanned corpus is
rejected as a duplicate: the RowResult carries the duplicate-title
error, action and postId are null, no post create/update write appears
in the trace, and the remote post list is unchanged. -/
theorem c1_duplicate_rejected (env : Env) (st : Store) (row : Row) (n : Nat)
    (henv : env.titleScanErr = false)
    (ht : jsTrim row.title ≠ "") (hc : jsTrim row.content ≠ "")
    (hdup : ∃ p ∈ scannedPosts st, normalizeTitle p.title = normalizeTitle row.title) :
    (∃ i, (createOrUpdatePost env st row n).1.error = some (dupErrMsg (jsTrim row.title) i)) ∧
    (createOrUpdatePost env st row n).1.action = none ∧
    (createOrUpdatePost env st row n).1.postId = none ∧
    (∀ e ∈ (createOrUpdatePost env st row n).2.2, e ≠ Ev.write WKind.post) ∧
    ((createOrUpdatePost env st row n).2.1).posts = st.posts := by
  have ht2 : jsTrim (jsTrim row.title) ≠ "" := by rw [jsTrim_jsTrim]; exact ht
  have heq := findPostByTitle_eq env (resolveRow env st row).2.1 (jsTrim row.title) henv ht2
  obtain ⟨p, hp, hpt⟩ := hdup
  have hsome : ((scannedPosts (resolveRow env st row).2.1).find?
      (fun q => normalizeTitle q.title == normalizeTitle (jsTrim row.title))).isSome := by
    rw [scannedPosts_resolveRow]
    refine List.find?_isSome.mpr ⟨p, hp, ?_⟩
    rw [normalizeTitle_jsTrim]
    exact beq_iff_eq.mpr hpt
  obtain ⟨q, hq⟩ := Option.isSome_iff_exists.mp hsome
  have hdupsome : (findPostByTitle env (resolveRow env st row).2.1 (jsTrim row.title)).1
      = some q.id := by
    rw [heq, hq]
    rfl
  simp only [createOrUpdatePost, if_neg ht, if_neg hc]
  rw [hdupsome]
  split
  · rename_i did heq2
    refine ⟨⟨did, rfl⟩, rfl, rfl, ?_, (resolveRow_store env st row).1⟩
    intro e he
    rcases List.mem_append.mp he with h1 | h1
    · exact resolveRow_trace env st row e h1
    · obtain ⟨k, hk⟩ :=
        findPostByTitle_reads env (resolveRow env st row).2.1 (jsTrim row.title) e h1
      rw [hk]
      exact fun hh => Ev.noConfusion hh
  · rename_i heq2
    exact Option.noConfusion heq2

/-- Witness for C1: a store holding a post titled "Hello" rejects a
row titled " hello " as a duplicate. -/
def c1bStore : Store := ⟨[⟨7, "Hello", "hello", "publish"⟩], [], 10, 20, 30⟩

def c1bRow : Row := { title := " hello ", content := "x" }

theorem c1_duplicate_rejected_witness :
    cEnv.titleScanErr = false ∧ jsTrim c1bRow.title ≠ "" ∧ jsTrim c1bRow.content ≠ "" ∧
    (∃ p ∈ scannedPosts c1bStore, normalizeTitle p.title = normalizeTitle c1bRow.title) ∧
    ((∃ i, (createOrUpdatePost cEnv c1bStore c1bRow 1).1.error
        = some (dupErrMsg (jsTrim c1bRow.title) i)) ∧
     (createOrUpdatePost cEnv c1bStore c1bRow 1).1.action = none ∧
     (createOrUpdatePost cEnv c1bStore c1bRow 1).1.postId = none ∧
     (∀ e ∈ (createOrUpdatePost cEnv c1bStore c1bRow 1).2.2, e ≠ Ev.write WKind.post) ∧
     ((createOrUpdatePost cEnv c1bStore c1bRow 1).2.1).posts = c1bStore.posts) := by
  refine ⟨rfl, by decide, by decide, ?_, ?_⟩
  · exact ⟨⟨7, "Hello", "hello", "publish"⟩, by decide, by decide⟩
  · exact c1_duplicate_rejected cEnv c1bStore c1bRow 1 rfl (by decide) (by decide)
      ⟨⟨7, "Hello", "hello", "publish"⟩, by decide, by decide⟩

/-! ## C2: slug reconciliation decides create versus update -/

/-- Remote identifier discipline: every stored post's id is below the
id the server will assign next. -/
def storeWF (st : Store) : Prop := ∀ p ∈ st.posts, p.id < st.nextPostId

/-- C2: for a validated row with a slug and no duplicate title, the
row is reconciled by slug: if some remote post carries exactly the
trimmed slug the result is an update of that post's id, otherwise a
creation under the freshly assigned id. -/
theorem c2_slug_reconciliation (env : Env) (st : Store) (row : Row) (n : Nat)
    (henv : env.titleScanErr = false)
    (ht : jsTrim row.title ≠ "") (hc : jsTrim row.content ≠ "")
    (hnodup : ∀ p ∈ scannedPosts st, normalizeTitle p.title ≠ normalizeTitle row.title)
    (hs : jsTrim row.slug ≠ "") (hwf : storeWF st) :
    match st.posts.find? (fun p => p.slug == jsTrim row.slug) with
    | some p =>
        (createOrUpdatePost env st row n).1.action = some "updated" ∧
        (createOrUpdatePost env st row n).1.postId = some p.id ∧
        (createOrUpdatePost env st row n).1.error = none
    | none =>
        (createOrUpdatePost env st row n).1.action = some "created" ∧
        (createOrUpdatePost env st row n).1.postId = some st.nextPostId ∧
        (createOrUpdatePost env st row n).1.error = none ∧
        ∀ p ∈ st.posts, p.id ≠ st.nextPostId := by
  have ht2 : jsTrim (jsTrim row.title) ≠ "" := by rw [jsTrim_jsTrim]; exact ht
  have hdupnone : (findPostByTitle env (resolveRow env st row).2.1 (jsTrim row.title)).1
      = none := by
    rw [findPostByTitle_eq env _ _ henv ht2]
    have hfn : (scannedPosts (resolveRow env st row).2.1).find?
        (fun q => normalizeTitle q.title == normalizeTitle (jsTrim row.title)) = none := by
      rw [scannedPosts_resolveRow]
      refine List.find?_eq_none.mpr ?_
      intro p hp hb
      rw [normalizeTitle_jsTrim] at hb
      exact hnodup p hp (beq_iff_eq.mp hb)
    rw [hfn]
    rfl
  have hposts : ((resolveRow env st row).2.1).posts = st.posts := (resolveRow_store env st row).1
  have hnext : ((resolveRow env st row).2.1).nextPostId = st.nextPostId :=
    (resolveRow_store env st row).2
  have hs2 : jsTrim (jsTrim row.slug) ≠ "" := by rw [jsTrim_jsTrim]; exact hs
  have hslug : (findPostBySlug (resolveRow env st row).2.1 (jsTrim row.slug)).1
      = (st.posts.find? (fun p => p.slug == jsTrim row.slug)).map (fun p => p.id) := by
    unfold findPostBySlug
    rw [if_neg hs2, hposts, jsTrim_jsTrim]
  have hkey : ∀ res : Option Nat,
      (findPostBySlug (resolveRow env st row).2.1 (jsTrim row.slug)).1 = res →
      (createOrUpdatePost env st row n).1 = match res with
      | some pid =>
          ⟨n, if row.title = "" then "Untitled" else row.title, some "updated", some pid,
            some (if jsTrim row.status ≠ "" then jsTrim row.status else env.defaultStatus), none⟩
      | none =>
          ⟨n, if row.title = "" then "Untitled" else row.title, some "created",
            some ((resolveRow env st row).2.1).nextPostId,
            some (if jsTrim row.status ≠ "" then jsTrim row.status else env.defaultStatus),
            none⟩ := by
    intro res hres
    simp only [createOrUpdatePost, if_neg ht, if_neg hc]
    rw [hdupnone, if_pos hs]
    simp only []
    rw [hres]
    cases res with
    | some pid => rfl
    | none => rfl
  cases hfind : st.posts.find? (fun p => p.slug == jsTrim row.slug) with
  | some p =>
      have h1 := hkey (some p.id) (by rw [hslug, hfind]; rfl)
      refine ⟨?_, ?_, ?_⟩ <;> rw [h1]
  | none =>
      have h1 := hkey none (by rw [hslug, hfind]; rfl)
      refine ⟨?_, ?_, ?_, ?_⟩
      · rw [h1]
      · rw [h1]
        show some ((resolveRow env st row).2.1).nextPostId = some st.nextPostId
        rw [hnext]
      · rw [h1]
      · intro p hp
        exact Nat.ne_of_lt (hwf p hp)

/-- Witness for C2 on the update branch: a row whose trimmed slug
matches an existing post is reconciled to an update of that post. -/
def c2Store : Store := ⟨[⟨3, "Other", "my-slug", "publish"⟩], [], 10, 20, 30⟩

def c2Row : Row := { title := "New Post", content := "x", slug := " my-slug " }

theorem c2_slug_reconciliation_witness :
    jsTrim c2Row.slug ≠ "" ∧
    c2Store.posts.find? (fun p => p.slug == jsTrim c2Row.slug)
      = some ⟨3, "Other", "my-slug", "publish"⟩ ∧
    (createOrUpdatePost cEnv c2Store c2Row 1).1.action = some "updated" ∧
    (createOrUpdatePost cEnv c2Store c2Row 1).1.postId = some 3 ∧
    (createOrUpdatePost cEnv c2Store c2Row 1).1.error = none := by
  have h := c2_slug_reconciliation cEnv c2Store c2Row 1 rfl (by decide) (by decide)
      (by decide) (by decide)
      ((by decide : ∀ p ∈ c2Store.posts, p.id < c2Store.nextPostId) : storeWF c2Store)
  rw [show c2Store.posts.find? (fun p => p.slug == jsTrim c2Row.slug)
      = some ⟨3, "Other", "my-slug", "publish"⟩ from by decide] at h
  exact ⟨by decide, by decide, h.1, h.2.1, h.2.2⟩

end BulkUpload
